import Mathlib

/-!
Verification development for the `virtual_memory_sim` demand-paging simulator.

The definitions below are a shallow embedding of the simulator's core
(`src/virtual_memory.rs` together with `src/storage.rs`):

* Machine integers are modelled as `Nat` (with an explicit `% 2 ^ 32` where the
  Rust code truncates to `u32`, and `2 ^ 64 - 1` for the `usize::MAX` sentinel).
  `u8`-typed fields carry their `< 256` bound as a hypothesis where a theorem
  needs it.
* The `linked_hash_map::LinkedHashMap<usize, usize>` used by the TLB is
  modelled as a `List (Nat × Nat)` kept in insertion order, oldest entry first
  (the crate's "front") and newest entry last (the crate's "back").  The
  crate's `insert` re-seats an existing key to the back, `pop_back` removes the
  newest entry, `get` does not reorder, and `remove` deletes by key.
* The `Fifo<T>` wrapper around `std::collections::LinkedList` is modelled as a
  `List Nat` in the linked list's front-to-back order: `enqueue` is
  `push_front` (cons) and `dequeue` is `pop_back` (`getLast?` / `dropLast`).
  The struct's separate length counter always equals the list length in any
  state where no dequeue-on-empty panic has occurred, and a dequeue on an empty
  queue is a panic either way, so it is modelled by the list alone.
* The `std::collections::HashMap<usize, Page>` page table is modelled as an
  association list with unique keys; only `get`, `get_mut` and `insert` are
  used by the engine, none of which observe iteration order.
* Rust panics (slice index out of bounds, `Option::expect`, queue underflow)
  are modelled by `Option`: a `none` result is a panic.  Fallible operations
  return `Except Unit` mirroring `Result<_, Error>`.
* The `Storage` handle (a `BufReader<File>` over the backing-store file) is
  modelled by the file's byte contents `data : List Nat` together with the
  denotation of `Storage::read` on a regular file: `seek` to
  `buffer.len() * seek_multiplier` never fails (seeking past EOF is allowed),
  and `Read::read` transfers `min (buffer length) (bytes remaining)` bytes,
  leaving the rest of the buffer untouched, and returns `Ok` (at EOF it reads
  zero bytes; the returned count is ignored by the Rust code).  An abstract
  storage function (`StorageFn`) stands for the handle so that genuine I/O
  failures (which `?`-propagate) can also be analysed.
-/

/-- `usize::MAX`, the "unassigned" owner sentinel used by `Frame::new`. -/
def USIZE_MAX : Nat := 2 ^ 64 - 1

/-- Reinterpretation of a byte as a signed 8-bit integer (`u8 as i8`). -/
def toI8 (b : Nat) : Int :=
  if b % 256 < 128 then (b % 256 : Int) else (b % 256 : Int) - 256

/-- `address::VirtualAddress`: `number_page` and `number_offset` are `u8`
fields, `extra_bits` is `u16`; the bounds are carried as hypotheses where
needed. -/
structure VirtualAddress where
  number_page : Nat
  number_offset : Nat
  extra_bits : Nat
deriving DecidableEq

/-- `virtual_memory::AccessResult` (`physical_address` is a `u32` value,
`value` an `i8` value). -/
structure AccessResult where
  virtual_address : VirtualAddress
  physical_address : Nat
  value : Int
deriving DecidableEq

/-- `tracker::Tracker`.  The engine revision in `virtual_memory.rs` also
increments an `attempted_memory_accesses` counter, so it is included. -/
structure Tracker where
  page_faults : Nat
  page_hits : Nat
  tlb_faults : Nat
  tlb_hits : Nat
  tlb_flushes : Nat
  correct_memory_accesses : Nat
  attempted_memory_accesses : Nat
deriving DecidableEq

/-- `Tracker::new`: all counters zero. -/
def Tracker.new : Tracker := ⟨0, 0, 0, 0, 0, 0, 0⟩

/-- `virtual_memory::Page`: a page-table entry. -/
structure Page where
  frame_index : Nat
  valid : Bool
deriving DecidableEq

/-- `linked_hash_map` lookup (`LinkedHashMap::get`): no reordering. -/
def lhmGet (m : List (Nat × Nat)) (k : Nat) : Option Nat :=
  (m.find? (fun e => e.1 == k)).map Prod.snd

/-- `linked_hash_map` insert (`LinkedHashMap::insert`): an existing key is
re-seated, the entry ends up at the back (newest position). -/
def lhmInsert (m : List (Nat × Nat)) (k v : Nat) : List (Nat × Nat) :=
  m.filter (fun e => e.1 != k) ++ [(k, v)]

/-- `linked_hash_map` removal by key (`LinkedHashMap::remove`). -/
def lhmRemove (m : List (Nat × Nat)) (k : Nat) : List (Nat × Nat) :=
  m.filter (fun e => e.1 != k)

/-- `virtual_memory::TLB`. -/
structure TLB where
  table_size : Nat
  map : List (Nat × Nat)
deriving DecidableEq

/-- `TLB::build`. -/
def TLB.build (table_size : Nat) : TLB := ⟨table_size, []⟩

/-- `TLB::find`: look up a page number; does not change the order. -/
def TLB.find (t : TLB) (page_number : Nat) : Option Nat :=
  lhmGet t.map page_number

/-- `TLB::cache_element`: when the map is at `table_size`, `pop_back` first
(this removes the NEWEST entry of the linked hash map), then insert. -/
def TLB.cache_element (t : TLB) (key value : Nat) : TLB :=
  let m := if t.map.length = t.table_size then t.map.dropLast else t.map
  ⟨t.table_size, lhmInsert m key value⟩

/-- `TLB::flush_element`: remove the key, report whether an entry was
removed. -/
def TLB.flush_element (t : TLB) (key : Nat) : Bool × TLB :=
  ((t.map.find? (fun e => e.1 == key)).isSome, ⟨t.table_size, lhmRemove t.map key⟩)

/-- `virtual_memory::PageTable`, a `HashMap<usize, Page>` as an association
list with unique keys. -/
structure PageTable where
  entries : List (Nat × Page)
deriving DecidableEq

/-- `PageTable::build`. -/
def PageTable.build : PageTable := ⟨[]⟩

/-- `PageTable::find` (`HashMap::get`). -/
def PageTable.find (pt : PageTable) (id : Nat) : Option Page :=
  (pt.entries.find? (fun e => e.1 == id)).map Prod.snd

/-- `PageTable::insert` (`HashMap::insert` replaces any existing entry). -/
def PageTable.insert (pt : PageTable) (id : Nat) (page : Page) : PageTable :=
  ⟨pt.entries.filter (fun e => e.1 != id) ++ [(id, page)]⟩

/-- The `if let Some(page) = self.pages.find_mut(id) { page.valid = false }`
idiom of `retrieve_frame`: mark the entry for `id` invalid when present. -/
def PageTable.invalidate (pt : PageTable) (id : Nat) : PageTable :=
  ⟨pt.entries.map (fun e => if e.1 == id then (e.1, { e.2 with valid := false }) else e)⟩

/-- `virtual_memory::Frame`: byte buffer plus owning page id. -/
structure Frame where
  buffer : List Nat
  page_id : Nat
deriving DecidableEq

/-- `Frame::new`: zeroed buffer of `frame_size` bytes, owner `usize::MAX`. -/
def Frame.new (frame_size : Nat) : Frame :=
  ⟨List.replicate frame_size 0, USIZE_MAX⟩

/-- `virtual_memory::FrameTable`.  `available` and `victimizer` are the two
`Fifo<usize>` queues in linked-list front-to-back order (enqueue = cons,
dequeue = take from the end). -/
structure FrameTable where
  table_size : Nat
  frame_size : Nat
  entries : List Frame
  available : List Nat
  victimizer : List Nat
deriving DecidableEq

/-- `FrameTable::build`: one zeroed frame per index, every index enqueued into
`available` (index 0 first, so 0 is dequeued first), `victimizer` empty. -/
def FrameTable.build (table_size frame_size : Nat) : FrameTable :=
  ⟨table_size, frame_size, List.replicate table_size (Frame.new frame_size),
    (List.range table_size).reverse, []⟩

/-- `FrameTable::reaper`: dequeue the oldest victimizer entry and enqueue it
into `available`; `none` models the `expect` panic on an empty queue. -/
def FrameTable.reaper (ft : FrameTable) : Option FrameTable :=
  match ft.victimizer.getLast? with
  | none => none
  | some target =>
      some { ft with victimizer := ft.victimizer.dropLast,
                     available := target :: ft.available }

/-- `FrameTable::allocate`: run the reaper when the victimizer holds
`table_size` entries, then dequeue a free frame (the `expect` panic is `none`)
and enqueue it into the victimizer. -/
def FrameTable.allocate (ft : FrameTable) : Option (Nat × FrameTable) :=
  match (if ft.victimizer.length = ft.table_size then ft.reaper else some ft) with
  | none => none
  | some ft1 =>
      match ft1.available.getLast? with
      | none => none
      | some alloc_index =>
          some (alloc_index,
            { ft1 with available := ft1.available.dropLast,
                       victimizer := alloc_index :: ft1.victimizer })

/-- Abstract storage handle: given `seek_multiplier` and the current buffer
contents, produce the buffer contents after `Storage::read`, or an I/O
error. -/
def StorageFn : Type := Nat → List Nat → Except Unit (List Nat)

/-- `Storage::read` over a regular file with bytes `data`: seek to
`buffer.len() * seek_multiplier` (seeking past EOF succeeds), `Read::read`
transfers `min (buffer.length) (data.length - seek_pos)` bytes and the
returned byte count is ignored, so the call returns `Ok` even when it reads
nothing (EOF); the tail of the buffer beyond the bytes read is unchanged. -/
def Storage.read (data : List Nat) (seek_multiplier : Nat) (buffer : List Nat) :
    Except Unit (List Nat) :=
  let seek_pos := buffer.length * seek_multiplier
  let k := min buffer.length (data.length - seek_pos)
  Except.ok ((data.drop seek_pos).take k ++ buffer.drop k)

/-- The storage handle denoted by a backing-store file with bytes `data`. -/
def storageOf (data : List Nat) : StorageFn := fun m b => Storage.read data m b

/-- A storage handle whose underlying I/O fails (seek or read error). -/
def storageFail : StorageFn := fun _ _ => Except.error ()

/-- `virtual_memory::VirtualMemory` (the `Storage` handle lives outside the
state as the `StorageFn` argument of the operations). -/
structure VirtualMemory where
  tlb : TLB
  pages : PageTable
  frames : FrameTable
  tracker : Tracker
deriving DecidableEq

/-- `VirtualMemory::build`. -/
def VirtualMemory.build (tlb_size frame_table_size frame_size : Nat) :
    VirtualMemory :=
  ⟨TLB.build tlb_size, PageTable.build,
    FrameTable.build frame_table_size frame_size, Tracker.new⟩

/-- `VirtualMemory::retrieve_frame`: allocate a frame; if the frame's previous
owner has a page-table entry, invalidate it and flush its TLB entry (counting
a flush); reassign the owner; read the page image from storage (an error
propagates, with the mutations so far kept); install the new page-table entry.
`none` models a panic. -/
def VirtualMemory.retrieve_frame (σ : StorageFn) (vm : VirtualMemory)
    (page_number : Nat) : Option (VirtualMemory × Except Unit Nat) :=
  match vm.frames.allocate with
  | none => none
  | some (frame_index, ft1) =>
      match ft1.entries.get? frame_index with
      | none => none
      | some frame =>
          let prev := frame.page_id
          let st1 : PageTable × TLB × Tracker :=
            match vm.pages.find prev with
            | some _ =>
                let fl := vm.tlb.flush_element prev
                (vm.pages.invalidate prev, fl.2,
                  if fl.1 then
                    { vm.tracker with tlb_flushes := vm.tracker.tlb_flushes + 1 }
                  else vm.tracker)
            | none => (vm.pages, vm.tlb, vm.tracker)
          let frame1 : Frame := { frame with page_id := page_number }
          match σ page_number frame1.buffer with
          | Except.error e =>
              some ({ tlb := st1.2.1, pages := st1.1, tracker := st1.2.2,
                      frames := { ft1 with entries := ft1.entries.set frame_index frame1 } },
                    Except.error e)
          | Except.ok buf =>
              let frame2 : Frame := { frame1 with buffer := buf }
              some ({ tlb := st1.2.1,
                      pages := st1.1.insert page_number ⟨frame_index, true⟩,
                      tracker := st1.2.2,
                      frames := { ft1 with entries := ft1.entries.set frame_index frame2 } },
                    Except.ok frame_index)

/-- `VirtualMemory::access`: bump `attempted_memory_accesses`; TLB lookup
(hit bumps `tlb_hits`); on a miss consult the page table (a valid entry bumps
`page_hits` and is cached); otherwise `retrieve_frame` and cache, with an
error propagating before the cache; finally read the byte at the offset of the
resolved frame (an out-of-bounds index is a panic, `none`). -/
def VirtualMemory.access (σ : StorageFn) (vm : VirtualMemory)
    (virtual_address : VirtualAddress) :
    Option (VirtualMemory × Except Unit AccessResult) :=
  let vm0 : VirtualMemory :=
    { vm with tracker :=
        { vm.tracker with attempted_memory_accesses :=
            vm.tracker.attempted_memory_accesses + 1 } }
  let page_number := virtual_address.number_page
  let offset := virtual_address.number_offset
  let step : Option (VirtualMemory × Except Unit Nat) :=
    match vm0.tlb.find page_number with
    | some x =>
        some ({ vm0 with tracker :=
                  { vm0.tracker with tlb_hits := vm0.tracker.tlb_hits + 1 } },
              Except.ok x)
    | none =>
        let fault : Option (VirtualMemory × Except Unit Nat) :=
          match vm0.retrieve_frame σ page_number with
          | none => none
          | some (vm1, Except.error e) => some (vm1, Except.error e)
          | some (vm1, Except.ok fi) =>
              some ({ vm1 with tlb := vm1.tlb.cache_element page_number fi },
                    Except.ok fi)
        match vm0.pages.find page_number with
        | some page =>
            if page.valid then
              some ({ vm0 with
                        tracker := { vm0.tracker with
                                      page_hits := vm0.tracker.page_hits + 1 },
                        tlb := vm0.tlb.cache_element page_number page.frame_index },
                    Except.ok page.frame_index)
            else fault
        | none => fault
  match step with
  | none => none
  | some (vm1, Except.error e) => some (vm1, Except.error e)
  | some (vm1, Except.ok frame_index) =>
      match vm1.frames.entries.get? frame_index with
      | none => none
      | some f =>
          match f.buffer.get? offset with
          | none => none
          | some b =>
              some (vm1, Except.ok
                { virtual_address := virtual_address,
                  physical_address :=
                    (frame_index * vm1.frames.frame_size + offset) % 2 ^ 32,
                  value := toI8 b })

/-- Run a list of accesses in order; `none` as soon as one panics (the state
after an access that returns `Err` is still threaded, as in the replay loop
before its `unwrap`). -/
def runAccesses (σ : StorageFn) : VirtualMemory → List VirtualAddress →
    Option VirtualMemory
  | vm, [] => some vm
  | vm, va :: rest =>
      match vm.access σ va with
      | none => none
      | some (vm', _) => runAccesses σ vm' rest

/-- Iterated `FrameTable::allocate` (for the allocation-totality claim). -/
def allocN : Nat → FrameTable → Option FrameTable
  | 0, ft => some ft
  | n + 1, ft =>
      match ft.allocate with
      | none => none
      | some (_, ft') => allocN n ft'

/-- `config::Config` (the three size fields; the file paths and the delay play
no part in validation of the sizes). -/
structure Config where
  size_table : Nat
  size_tlb : Nat
  size_frame : Nat
deriving DecidableEq

/-- `n` is a power of two (`2 ^ k` for some `k < 32`, covering the `u32`
domain of `size_frame`). -/
def isPowerOfTwoU32 (n : Nat) : Bool :=
  (List.range 32).any (fun k => n == 2 ^ k)

/-- `Config::validate`: reject `size_tlb == 0 || size_tlb > size_table`, and
reject unless `size_frame` is a nonzero power of two.  (The Rust test
`f64::from(size_frame).log2().fract() == 0.0` holds for a `u32` argument
exactly when it is a nonzero power of two: `log2` of a power of two is an
exact integer, while for any other nonzero `u32` the value `log2 n` lies
strictly between consecutive integers by far more than half an ulp, and
`log2 0 = -inf` has `fract` NaN.)  Returns `true` when the process is not
exited. -/
def Config.validate (c : Config) : Bool :=
  if c.size_tlb = 0 || c.size_table < c.size_tlb then false
  else isPowerOfTwoU32 c.size_frame

/-- The canonical image of page `p` in the backing store: the `frame_size`
bytes starting at offset `frame_size * p`. -/
def pageImage (data : List Nat) (frame_size p : Nat) : List Nat :=
  (data.drop (frame_size * p)).take frame_size

/-- Bookkeeping coherence of a `VirtualMemory` state: the frame buffer sizes
and queue occupancy, and the mutual pointers between TLB, page table and
frame owners — every TLB entry `(p, f)` has a valid page-table entry
`p ↦ (f, valid)`; a frame with a real owner is the valid page-table target of
that owner; a valid page-table entry points back to a frame it owns. -/
def InvCtl (vm : VirtualMemory) : Prop :=
  vm.frames.entries.length = vm.frames.table_size ∧
  vm.frames.available.length + vm.frames.victimizer.length = vm.frames.table_size ∧
  (∀ i ∈ vm.frames.available, i < vm.frames.table_size) ∧
  (∀ i ∈ vm.frames.victimizer, i < vm.frames.table_size) ∧
  (∀ F ∈ vm.frames.entries, F.buffer.length = vm.frames.frame_size) ∧
  (∀ e ∈ vm.tlb.map, vm.pages.find e.1 = some ⟨e.2, true⟩) ∧
  (∀ i, i < vm.frames.entries.length →
    ∀ F ∈ vm.frames.entries.get? i, F.page_id ≠ USIZE_MAX →
      vm.pages.find F.page_id = some ⟨i, true⟩) ∧
  (∀ e ∈ vm.pages.entries, e.2.valid = true →
    (vm.frames.entries.get? e.2.frame_index).map Frame.page_id = some e.1)

/-- Data coherence against a backing store `data`: every frame referenced by a
valid page-table entry holds the canonical image of its page. -/
def InvData (data : List Nat) (vm : VirtualMemory) : Prop :=
  ∀ e ∈ vm.pages.entries, e.2.valid = true →
    ∀ F ∈ vm.frames.entries.get? e.2.frame_index,
      F.buffer = pageImage data vm.frames.frame_size e.1

instance optionBallDecidable {α : Type} (P : α → Prop) [DecidablePred P]
    (o : Option α) : Decidable (∀ a ∈ o, P a) :=
  match o with
  | none => isTrue (by simp)
  | some x => decidable_of_iff (P x) (by simp)

instance invCtlDecidable (vm : VirtualMemory) : Decidable (InvCtl vm) := by
  unfold InvCtl; infer_instance

instance invDataDecidable (data : List Nat) (vm : VirtualMemory) :
    Decidable (InvData data vm) := by
  unfold InvData; infer_instance

/-- The state after replaying `tr` from a freshly built `VirtualMemory`
(defaulting to the fresh state if the replay panics); used to name concrete
states in witness statements. -/
def vmAfter (tlb_size frame_table_size frame_size : Nat) (data : List Nat)
    (tr : List VirtualAddress) : VirtualMemory :=
  (runAccesses (storageOf data) (VirtualMemory.build tlb_size frame_table_size frame_size)
      tr).getD (VirtualMemory.build tlb_size frame_table_size frame_size)

/-- The (state, result) pair of a `retrieve_frame` call, defaulting on panic;
used to name concrete outcomes in witness statements. -/
def retrieveOut (σ : StorageFn) (vm : VirtualMemory) (p : Nat) :
    VirtualMemory × Except Unit Nat :=
  (vm.retrieve_frame σ p).getD (vm, Except.error ())

/-- The (state, result) pair of an `access` call, defaulting on panic; used to
name concrete outcomes in witness statements. -/
def accessOut (σ : StorageFn) (vm : VirtualMemory) (va : VirtualAddress) :
    VirtualMemory × Except Unit AccessResult :=
  (vm.access σ va).getD (vm, Except.error ())

/-! ## Claim C4 — `Storage::read` at and past end of file -/

/-- Claim C4: behaviour of `Storage::read` at the failing input.  With a
2-byte backing store, a 2-byte buffer and page number 1 the call seeks to end
of file, reads zero bytes and returns `Ok` with the buffer untouched — no
error is raised for the out-of-range page — while an in-range call (page 1 of
a 4-byte store) does seek to `buffer.len * page_number` and fills the whole
buffer. -/
theorem c4_eof_read_silent :
    Storage.read [5, 6] 1 [0, 0] = Except.ok [0, 0] ∧
    Storage.read [1, 2, 3, 4] 1 [0, 0] = Except.ok [3, 4] := by
  exact ⟨rfl, rfl⟩

/-! ## Claim C5 — TLB eviction at capacity -/

/-- Claim C5: behaviour of the code at the failing input.  With TLB capacity 2
and frame pool of size 3, accessing pages 1, 2, 3 from a cold start leaves the
TLB holding pages 1 and 3 — `cache_element` evicts via the linked hash map's
`pop_back`, which removes the MOST recently inserted entry (page 2), not the
oldest (page 1) — while page 1 indeed remains valid in the page table and
`tlb_flushes` is 0. -/
theorem c5_evicts_newest :
    (runAccesses (storageOf [0, 11, 22, 33]) (VirtualMemory.build 2 3 1)
        [⟨1, 0, 0⟩, ⟨2, 0, 0⟩, ⟨3, 0, 0⟩]).map
      (fun vm => (vm.tlb.map.map Prod.fst, vm.pages.find 1,
                  vm.tracker.tlb_flushes))
      = some ([1, 3], some ⟨0, true⟩, 0) := by decide

/-! ## Claim C6 — TLB hit count and order after [1, 2, 1] -/

/-- Claim C6 counterexample: with TLB size 2 and accesses to pages 1, 2, 1
from a cold start, the back (most recent) TLB position holds page 2, not
page 1 — lookup does not reorder, so the insertion order 1 then 2 persists —
refuting the claim that page 1 ends at the back. -/
theorem c6_counterexample :
    (runAccesses (storageOf [0, 11, 22, 33]) (VirtualMemory.build 2 2 1)
        [⟨1, 0, 0⟩, ⟨2, 0, 0⟩, ⟨1, 0, 0⟩]).map
      (fun vm => (vm.tlb.map.getLast?).map Prod.fst) = some (some 2) ∧
    (runAccesses (storageOf [0, 11, 22, 33]) (VirtualMemory.build 2 2 1)
        [⟨1, 0, 0⟩, ⟨2, 0, 0⟩, ⟨1, 0, 0⟩]).map
      (fun vm => (vm.tlb.map.getLast?).map Prod.fst) ≠ some (some 1) := by
  decide

/-- Claim C6 (amended): with TLB size 2 and the page sequence [1, 2, 1] from a
cold start, `tlb_hits` is 1 after the third access and the TLB contains
exactly pages 1 and 2, with page 1 at the front (oldest position) and page 2
at the back — TLB lookup does not change the order. -/
theorem c6_amended_run :
    (runAccesses (storageOf [0, 11, 22, 33]) (VirtualMemory.build 2 2 1)
        [⟨1, 0, 0⟩, ⟨2, 0, 0⟩, ⟨1, 0, 0⟩]).map
      (fun vm => (vm.tracker.tlb_hits, vm.tlb.map.map Prod.fst,
                  (vm.tlb.map.getLast?).map Prod.fst))
      = some (1, [1, 2], some 2) := by decide

/-! ## Claim C3 — no LRU promotion of frames on hits -/

/-- Claim C3 counterexample: with frame pool size 2, after accessing pages 1
then 2 (victimizer order, most recent first: [1, 0]), a third access to
page 1 succeeds served by frame 0 (physical address 0 = 0 · frame_size + 0),
yet the victimizer order is still [1, 0]: frame 0 was NOT promoted to the
most-recently-used position (the head), refuting the claim.  Consequently a
fourth access, to page 3, victimizes frame 0 — the frame of the
just-accessed page 1 — leaving page 1 invalid. -/
theorem c3_counterexample :
    ((runAccesses (storageOf [0, 11, 22, 33]) (VirtualMemory.build 2 2 1)
        [⟨1, 0, 0⟩, ⟨2, 0, 0⟩]).bind
      (fun vm2 => (vm2.access (storageOf [0, 11, 22, 33]) ⟨1, 0, 0⟩).map
        (fun out => (out.2.toOption, out.1.frames.victimizer))))
      = some (some ⟨⟨1, 0, 0⟩, 0, 11⟩, [1, 0]) ∧
    List.head? [1, 0] ≠ some 0 ∧
    (runAccesses (storageOf [0, 11, 22, 33]) (VirtualMemory.build 2 2 1)
        [⟨1, 0, 0⟩, ⟨2, 0, 0⟩, ⟨1, 0, 0⟩, ⟨3, 0, 0⟩]).map
      (fun vm => (vm.pages.find 1).map Page.valid) = some (some false) := by
  refine ⟨by decide, by decide, by decide⟩

/-! ## Helper lemmas about the ordered-map and page-table operations -/

theorem find?_filter_key {β : Type} (m : List (Nat × β)) (k q : Nat) (h : q ≠ k) :
    (m.filter (fun e => e.1 != k)).find? (fun e => e.1 == q)
      = m.find? (fun e => e.1 == q) := by
  induction m with
  | nil => rfl
  | cons a t ih =>
      by_cases ha : a.1 = k
      · have h1 : (a.1 != k) = false := by rw [ha]; simp
        have h2 : (a.1 == q) = false := by
          rw [ha]; exact beq_eq_false_iff_ne.mpr (Ne.symm h)
        simp only [List.filter_cons, h1, Bool.false_eq_true, if_false,
          List.find?_cons, h2, ih]
      · have h1 : (a.1 != k) = true := bne_iff_ne.mpr ha
        simp only [List.filter_cons, h1, if_true, List.find?_cons]
        cases hq : (a.1 == q) with
        | true => rfl
        | false => exact ih

theorem find?_filter_self {β : Type} (m : List (Nat × β)) (k : Nat) :
    (m.filter (fun e => e.1 != k)).find? (fun e => e.1 == k) = none := by
  rw [List.find?_eq_none]
  intro x hx
  have h2 := (List.mem_filter.mp hx).2
  simp only [bne_iff_ne, ne_eq] at h2
  simp [h2]

theorem lhmGet_insert_self (m : List (Nat × Nat)) (k v : Nat) :
    lhmGet (lhmInsert m k v) k = some v := by
  unfold lhmGet lhmInsert
  rw [List.find?_append, find?_filter_self]
  simp [List.find?_cons]

theorem lhmGet_remove_self (m : List (Nat × Nat)) (k : Nat) :
    lhmGet (lhmRemove m k) k = none := by
  unfold lhmGet lhmRemove
  rw [find?_filter_self]; rfl

theorem lhmGet_remove_ne (m : List (Nat × Nat)) (k q : Nat) (h : q ≠ k) :
    lhmGet (lhmRemove m k) q = lhmGet m q := by
  unfold lhmGet lhmRemove
  rw [find?_filter_key _ _ _ h]

theorem mem_lhmInsert {m : List (Nat × Nat)} {k v : Nat} {e : Nat × Nat}
    (h : e ∈ lhmInsert m k v) : e ∈ m ∨ e = (k, v) := by
  unfold lhmInsert at h
  rcases List.mem_append.mp h with h | h
  · exact Or.inl (List.mem_filter.mp h).1
  · simp only [List.mem_singleton] at h
    exact Or.inr h

theorem mem_lhmRemove {m : List (Nat × Nat)} {k : Nat} {e : Nat × Nat}
    (h : e ∈ lhmRemove m k) : e ∈ m ∧ e.1 ≠ k := by
  unfold lhmRemove at h
  have h2 := List.mem_filter.mp h
  exact ⟨h2.1, by simpa [bne_iff_ne] using h2.2⟩

/-- Membership after `cache_element`: every entry is an old entry or the new
pair. -/
theorem TLB.mem_cache_elim {t : TLB} {k v : Nat} {e : Nat × Nat}
    (h : e ∈ (t.cache_element k v).map) : e ∈ t.map ∨ e = (k, v) := by
  unfold TLB.cache_element at h
  simp only at h
  rcases mem_lhmInsert h with h | h
  · split at h
    · exact Or.inl (List.mem_of_mem_dropLast h)
    · exact Or.inl h
  · exact Or.inr h

theorem TLB.find_cache_self (t : TLB) (k v : Nat) :
    (t.cache_element k v).find k = some v := by
  unfold TLB.cache_element TLB.find
  exact lhmGet_insert_self _ k v

theorem TLB.find_flush_self (t : TLB) (k : Nat) :
    (t.flush_element k).2.find k = none := by
  unfold TLB.flush_element TLB.find
  exact lhmGet_remove_self _ k

theorem TLB.find_flush_ne (t : TLB) (k q : Nat) (h : q ≠ k) :
    (t.flush_element k).2.find q = t.find q := by
  unfold TLB.flush_element TLB.find
  exact lhmGet_remove_ne _ _ _ h

/-- Membership after `flush_element`: surviving entries are old entries with a
different key. -/
theorem TLB.mem_flush_elim {t : TLB} {k : Nat} {e : Nat × Nat}
    (h : e ∈ (t.flush_element k).2.map) : e ∈ t.map ∧ e.1 ≠ k :=
  mem_lhmRemove h

/-- `find` returns a genuine entry of the map. -/
theorem lhmGet_mem {m : List (Nat × Nat)} {k v : Nat}
    (h : lhmGet m k = some v) : (k, v) ∈ m := by
  unfold lhmGet at h
  rcases Option.map_eq_some'.mp h with ⟨e, he, hev⟩
  have h1 := List.mem_of_find?_eq_some he
  have h2 := List.find?_some he
  simp only [beq_iff_eq] at h2
  have : e = (k, v) := by
    cases e; simp_all
  exact this ▸ h1

theorem PageTable.find_insert_self (pt : PageTable) (id : Nat) (pg : Page) :
    (pt.insert id pg).find id = some pg := by
  unfold PageTable.find PageTable.insert
  rw [List.find?_append, find?_filter_self]
  simp [List.find?_cons]

theorem PageTable.find_insert_ne (pt : PageTable) (id : Nat) (pg : Page)
    (q : Nat) (h : q ≠ id) : (pt.insert id pg).find q = pt.find q := by
  unfold PageTable.find PageTable.insert
  rw [List.find?_append, find?_filter_key _ _ _ h]
  have : List.find? (fun e => e.1 == q) [(id, pg)] = none := by
    simp [List.find?_cons, Ne.symm h]
  rw [this, Option.or_none]

/-- `find?` through the key-preserving entry rewrite used by `invalidate`. -/
theorem find?_invalidate (l : List (Nat × Page)) (id q : Nat) :
    List.find? (fun e => e.1 == q)
        (l.map (fun e => if e.1 == id then (e.1, { e.2 with valid := false }) else e))
      = (List.find? (fun e => e.1 == q) l).map
          (fun e => if e.1 == id then (e.1, { e.2 with valid := false }) else e) := by
  induction l with
  | nil => rfl
  | cons a t ih =>
      rw [List.map_cons, List.find?_cons, List.find?_cons]
      have hkey : ((if a.1 == id then (a.1, { a.2 with valid := false }) else a).1)
          = a.1 := by
        by_cases h0 : a.1 = id <;> simp [h0]
      cases hq : (a.1 == q) with
      | true => simp only [hkey, hq, Option.map_some']
      | false => simp only [hkey, hq]; exact ih

theorem PageTable.find_invalidate_ne (pt : PageTable) (id q : Nat)
    (h : q ≠ id) : (pt.invalidate id).find q = pt.find q := by
  obtain ⟨l⟩ := pt
  unfold PageTable.find PageTable.invalidate
  simp only
  rw [find?_invalidate]
  cases hf : List.find? (fun e => e.1 == q) l with
  | none => rfl
  | some e =>
      have hp := List.find?_some hf
      have he : e.1 = q := by simpa using hp
      have h2 : (e.1 == id) = false := beq_eq_false_iff_ne.mpr (by rw [he]; exact h)
      simp [h2, beq_eq_false_iff_ne.mp h2]

theorem PageTable.find_invalidate_self (pt : PageTable) (id : Nat) :
    (pt.invalidate id).find id
      = (pt.find id).map (fun p => { p with valid := false }) := by
  obtain ⟨l⟩ := pt
  unfold PageTable.find PageTable.invalidate
  simp only
  rw [find?_invalidate]
  cases hf : List.find? (fun e => e.1 == id) l with
  | none => rfl
  | some e =>
      have hp := List.find?_some hf
      have he : (e.1 == id) = true := hp
      simp [he, beq_iff_eq.mp he]

theorem PageTable.mem_insert_elim {pt : PageTable} {id : Nat} {pg : Page}
    {e : Nat × Page} (h : e ∈ (pt.insert id pg).entries) :
    (e ∈ pt.entries ∧ e.1 ≠ id) ∨ e = (id, pg) := by
  unfold PageTable.insert at h
  rcases List.mem_append.mp h with h | h
  · have h2 := List.mem_filter.mp h
    exact Or.inl ⟨h2.1, by simpa [bne_iff_ne] using h2.2⟩
  · simp only [List.mem_singleton] at h
    exact Or.inr h

theorem PageTable.mem_invalidate_elim {pt : PageTable} {id : Nat}
    {e : Nat × Page} (h : e ∈ (pt.invalidate id).entries) :
    ∃ e0 ∈ pt.entries,
      e = (if e0.1 = id then (e0.1, { e0.2 with valid := false }) else e0) := by
  unfold PageTable.invalidate at h
  rcases List.mem_map.mp h with ⟨e0, he0, hee⟩
  refine ⟨e0, he0, ?_⟩
  by_cases h0 : e0.1 = id
  · simp [h0] at hee ⊢
    exact hee.symm
  · simp [h0] at hee ⊢
    exact hee.symm

deriving instance DecidableEq for Except

/-! ## Evaluation lemmas for `access` -/

/-- On a TLB hit, `access` bumps the attempted and hit counters, leaves every
other component unchanged, and returns the byte of the cached frame at the
offset. -/
theorem VirtualMemory.access_tlb_hit (σ : StorageFn) (vm : VirtualMemory)
    (va : VirtualAddress) (f : Nat) (F : Frame) (b : Nat)
    (hf : vm.tlb.find va.number_page = some f)
    (hF : vm.frames.entries.get? f = some F)
    (hb : F.buffer.get? va.number_offset = some b) :
    vm.access σ va = some
      ({ vm with tracker :=
          { vm.tracker with
              attempted_memory_accesses := vm.tracker.attempted_memory_accesses + 1,
              tlb_hits := vm.tracker.tlb_hits + 1 } },
        Except.ok ⟨va, (f * vm.frames.frame_size + va.number_offset) % 2 ^ 32, toI8 b⟩) := by
  unfold VirtualMemory.access
  simp only [hf, hF, hb]

/-- Characterization of a successful `access`: in the post state, the page is
cached in the TLB at some frame `f`, and the result is the byte of frame `f`
at the offset. -/
theorem VirtualMemory.access_ok (σ : StorageFn) (vm : VirtualMemory)
    (va : VirtualAddress) (vm1 : VirtualMemory) (r1 : AccessResult)
    (h : vm.access σ va = some (vm1, Except.ok r1)) :
    ∃ f F b, vm1.tlb.find va.number_page = some f ∧
      vm1.frames.entries.get? f = some F ∧
      F.buffer.get? va.number_offset = some b ∧
      r1 = ⟨va, (f * vm1.frames.frame_size + va.number_offset) % 2 ^ 32, toI8 b⟩ := by
  unfold VirtualMemory.access at h
  cases hT : vm.tlb.find va.number_page with
  | some f =>
      simp only [hT] at h
      cases hF : vm.frames.entries.get? f with
      | none =>
          simp only [hF] at h
          exact Option.noConfusion h
      | some F =>
          cases hb : F.buffer.get? va.number_offset with
          | none =>
              simp only [hF, hb] at h
              exact Option.noConfusion h
          | some b =>
              simp only [hF, hb, Option.some.injEq, Prod.mk.injEq,
                Except.ok.injEq] at h
              obtain ⟨h1, h2⟩ := h
              subst h1
              exact ⟨f, F, b, hT, hF, hb, h2.symm⟩
  | none =>
      simp only [hT] at h
      cases hP : vm.pages.find va.number_page with
      | some page =>
          cases hV : page.valid with
          | true =>
              simp only [hP, hV, if_true] at h
              cases hF : vm.frames.entries.get? page.frame_index with
              | none =>
                  simp only [hF] at h
                  exact Option.noConfusion h
              | some F =>
                  cases hb : F.buffer.get? va.number_offset with
                  | none =>
                      simp only [hF, hb] at h
                      exact Option.noConfusion h
                  | some b =>
                      simp only [hF, hb, Option.some.injEq, Prod.mk.injEq,
                        Except.ok.injEq] at h
                      obtain ⟨h1, h2⟩ := h
                      subst h1
                      refine ⟨page.frame_index, F, b, ?_, hF, hb, h2.symm⟩
                      exact TLB.find_cache_self vm.tlb va.number_page page.frame_index
          | false =>
              simp only [hP, hV, Bool.false_eq_true, if_false] at h
              cases hR : VirtualMemory.retrieve_frame σ
                  { vm with tracker :=
                      { vm.tracker with attempted_memory_accesses :=
                          vm.tracker.attempted_memory_accesses + 1 } }
                  va.number_page with
              | none =>
                  simp only [hR] at h
                  exact Option.noConfusion h
              | some out =>
                  obtain ⟨vmR, er | fi⟩ := out
                  · simp only [hR, Option.some.injEq, Prod.mk.injEq] at h
                    exact Except.noConfusion h.2
                  · simp only [hR] at h
                    cases hF : vmR.frames.entries.get? fi with
                    | none =>
                        simp only [hF] at h
                        exact Option.noConfusion h
                    | some F =>
                        cases hb : F.buffer.get? va.number_offset with
                        | none =>
                            simp only [hF, hb] at h
                            exact Option.noConfusion h
                        | some b =>
                            simp only [hF, hb, Option.some.injEq, Prod.mk.injEq,
                              Except.ok.injEq] at h
                            obtain ⟨h1, h2⟩ := h
                            subst h1
                            refine ⟨fi, F, b, ?_, hF, hb, h2.symm⟩
                            exact TLB.find_cache_self vmR.tlb va.number_page fi
      | none =>
          simp only [hP] at h
          cases hR : VirtualMemory.retrieve_frame σ
              { vm with tracker :=
                  { vm.tracker with attempted_memory_accesses :=
                      vm.tracker.attempted_memory_accesses + 1 } }
              va.number_page with
          | none =>
              simp only [hR] at h
              exact Option.noConfusion h
          | some out =>
              obtain ⟨vmR, er | fi⟩ := out
              · simp only [hR, Option.some.injEq, Prod.mk.injEq] at h
                exact Except.noConfusion h.2
              · simp only [hR] at h
                cases hF : vmR.frames.entries.get? fi with
                | none =>
                    simp only [hF] at h
                    exact Option.noConfusion h
                | some F =>
                    cases hb : F.buffer.get? va.number_offset with
                    | none =>
                        simp only [hF, hb] at h
                        exact Option.noConfusion h
                    | some b =>
                        simp only [hF, hb, Option.some.injEq, Prod.mk.injEq,
                          Except.ok.injEq] at h
                        obtain ⟨h1, h2⟩ := h
                        subst h1
                        refine ⟨fi, F, b, ?_, hF, hb, h2.symm⟩
                        exact TLB.find_cache_self vmR.tlb va.number_page fi

/-! ## Claim C8 — idempotence of repeated access -/

/-- Claim C8: after any successful `access(vaddr)` (from any state), an
immediately repeated `access(vaddr)` succeeds, returns the identical
`AccessResult` (same virtual address, physical address and value), and
increments `tlb_hits` by exactly one. -/
theorem c8_access_idempotent (σ : StorageFn) (vm : VirtualMemory)
    (va : VirtualAddress) (vm1 : VirtualMemory) (r1 : AccessResult)
    (hacc : vm.access σ va = some (vm1, Except.ok r1)) :
    ∃ vm2, vm1.access σ va = some (vm2, Except.ok r1) ∧
      vm2.tracker.tlb_hits = vm1.tracker.tlb_hits + 1 := by
  obtain ⟨f, F, b, h1, h2, h3, h4⟩ := VirtualMemory.access_ok σ vm va vm1 r1 hacc
  refine ⟨{ vm1 with tracker :=
      { vm1.tracker with
          attempted_memory_accesses := vm1.tracker.attempted_memory_accesses + 1,
          tlb_hits := vm1.tracker.tlb_hits + 1 } }, ?_, rfl⟩
  rw [h4]
  exact VirtualMemory.access_tlb_hit σ vm1 va f F b h1 h2 h3

/-- Claim C8 witness: the theorem applied to the concrete first access of
page 1 (frame size 1, backing store [9, 8]) from a cold start. -/
theorem c8_witness :
    ∃ vm2, ((accessOut (storageOf [9, 8]) (VirtualMemory.build 1 1 1)
        ⟨1, 0, 0⟩).1).access (storageOf [9, 8]) ⟨1, 0, 0⟩
        = some (vm2, Except.ok ⟨⟨1, 0, 0⟩, 0, toI8 8⟩) ∧
      vm2.tracker.tlb_hits
        = ((accessOut (storageOf [9, 8]) (VirtualMemory.build 1 1 1)
            ⟨1, 0, 0⟩).1).tracker.tlb_hits + 1 :=
  c8_access_idempotent (storageOf [9, 8]) (VirtualMemory.build 1 1 1) ⟨1, 0, 0⟩
    (accessOut (storageOf [9, 8]) (VirtualMemory.build 1 1 1) ⟨1, 0, 0⟩).1
    ⟨⟨1, 0, 0⟩, 0, toI8 8⟩ (by decide)

/-- Claim C3 (amended): an access served by the TLB or by a valid page-table
entry leaves the frame table — entries, available queue and victimizer
(replacement) order — completely unchanged: frames are never promoted on a
hit.  (The victimizer order is FIFO over allocations: an index is enqueued
only by `allocate`, so `allocate` victimizes the least-recently-ALLOCATED
frame, as the accompanying counterexample shows.) -/
theorem c3_no_promotion_on_hit (σ : StorageFn) (vm : VirtualMemory)
    (va : VirtualAddress) (vm' : VirtualMemory) (r : Except Unit AccessResult)
    (hserved : (vm.tlb.find va.number_page).isSome = true ∨
      (vm.pages.find va.number_page).map Page.valid = some true)
    (hacc : vm.access σ va = some (vm', r)) :
    vm'.frames = vm.frames := by
  unfold VirtualMemory.access at hacc
  cases hT : vm.tlb.find va.number_page with
  | some f =>
      simp only [hT] at hacc
      cases hF : vm.frames.entries.get? f with
      | none =>
          simp only [hF] at hacc
          exact Option.noConfusion hacc
      | some F =>
          cases hb : F.buffer.get? va.number_offset with
          | none =>
              simp only [hF, hb] at hacc
              exact Option.noConfusion hacc
          | some b =>
              simp only [hF, hb, Option.some.injEq, Prod.mk.injEq] at hacc
              obtain ⟨h1, _⟩ := hacc
              rw [← h1]
  | none =>
      rcases hserved with hs | hs
      · rw [hT] at hs
        exact Bool.noConfusion hs
      · cases hP : vm.pages.find va.number_page with
        | none =>
            rw [hP] at hs
            exact Option.noConfusion hs
        | some pg =>
            rw [hP] at hs
            have hv : pg.valid = true := by
              simpa using hs
            simp only [hT, hP, hv, if_true] at hacc
            cases hF : vm.frames.entries.get? pg.frame_index with
            | none =>
                simp only [hF] at hacc
                exact Option.noConfusion hacc
            | some F =>
                cases hb : F.buffer.get? va.number_offset with
                | none =>
                    simp only [hF, hb] at hacc
                    exact Option.noConfusion hacc
                | some b =>
                    simp only [hF, hb, Option.some.injEq, Prod.mk.injEq] at hacc
                    obtain ⟨h1, _⟩ := hacc
                    rw [← h1]

/-- Claim C3 witness for the amended theorem: the third access of the
counterexample trace (a TLB hit on page 1) leaves the frame table of the
state reached after accessing pages 1 and 2 unchanged. -/
theorem c3_witness :
    ((accessOut (storageOf [0, 11, 22, 33])
        (vmAfter 2 2 1 [0, 11, 22, 33] [⟨1, 0, 0⟩, ⟨2, 0, 0⟩]) ⟨1, 0, 0⟩).1).frames
      = (vmAfter 2 2 1 [0, 11, 22, 33] [⟨1, 0, 0⟩, ⟨2, 0, 0⟩]).frames :=
  c3_no_promotion_on_hit (storageOf [0, 11, 22, 33])
    (vmAfter 2 2 1 [0, 11, 22, 33] [⟨1, 0, 0⟩, ⟨2, 0, 0⟩]) ⟨1, 0, 0⟩
    (accessOut (storageOf [0, 11, 22, 33])
      (vmAfter 2 2 1 [0, 11, 22, 33] [⟨1, 0, 0⟩, ⟨2, 0, 0⟩]) ⟨1, 0, 0⟩).1
    (accessOut (storageOf [0, 11, 22, 33])
      (vmAfter 2 2 1 [0, 11, 22, 33] [⟨1, 0, 0⟩, ⟨2, 0, 0⟩]) ⟨1, 0, 0⟩).2
    (Or.inl (by decide)) (by decide)

/-! ## Frame allocation bookkeeping -/

/-- `allocate` never touches the frame entries or the configured sizes. -/
theorem FrameTable.allocate_fields {ft : FrameTable} {f₀ : Nat}
    {ft' : FrameTable} (h : ft.allocate = some (f₀, ft')) :
    ft'.entries = ft.entries ∧ ft'.table_size = ft.table_size ∧
    ft'.frame_size = ft.frame_size := by
  unfold FrameTable.allocate at h
  cases hreap : (if ft.victimizer.length = ft.table_size then ft.reaper else some ft) with
  | none =>
      simp only [hreap] at h
      exact Option.noConfusion h
  | some ft1 =>
      simp only [hreap] at h
      have hft1 : ft1.entries = ft.entries ∧ ft1.table_size = ft.table_size ∧
          ft1.frame_size = ft.frame_size := by
        split at hreap
        · unfold FrameTable.reaper at hreap
          cases hV : ft.victimizer.getLast? with
          | none =>
              rw [hV] at hreap
              exact Option.noConfusion hreap
          | some t =>
              rw [hV] at hreap
              simp only [Option.some.injEq] at hreap
              rw [← hreap]
              exact ⟨rfl, rfl, rfl⟩
        · simp only [Option.some.injEq] at hreap
          rw [← hreap]
          exact ⟨rfl, rfl, rfl⟩
      cases hL : ft1.available.getLast? with
      | none =>
          simp only [hL] at h
          exact Option.noConfusion h
      | some i =>
          simp only [hL, Option.some.injEq, Prod.mk.injEq] at h
          rw [← h.2]
          exact hft1

/-! ## Claim C2 — coherence after a frame is reclaimed -/

/-- Claim C2: from any state satisfying the bookkeeping invariant, when
`retrieve_frame(p)` (called on a page p that is not valid-resident, which is
the only way `access` calls it) allocates a frame whose previous owner
`F.page_id` is a real page (not the `usize::MAX` sentinel), then in the state
immediately after the call that owner's page-table entry is invalid and the
TLB holds no entry for it — regardless of whether the storage read succeeded. -/
theorem c2_retrieve_coherence (σ : StorageFn) (vm : VirtualMemory)
    (p f₀ : Nat) (ft₁ : FrameTable) (F : Frame) (vm' : VirtualMemory)
    (res : Except Unit Nat)
    (hinv : InvCtl vm)
    (hmiss : ¬ (vm.pages.find p).map Page.valid = some true)
    (halloc : vm.frames.allocate = some (f₀, ft₁))
    (hF : ft₁.entries.get? f₀ = some F)
    (hprev : F.page_id ≠ USIZE_MAX)
    (hret : vm.retrieve_frame σ p = some (vm', res)) :
    (vm'.pages.find F.page_id).map Page.valid = some false ∧
    vm'.tlb.find F.page_id = none := by
  obtain ⟨c1, c2, c3, c4, c5, c6, c7, c8⟩ := hinv
  obtain ⟨hent, -, -⟩ := FrameTable.allocate_fields halloc
  have hF0 : vm.frames.entries.get? f₀ = some F := by rw [← hent]; exact hF
  have hlt : f₀ < vm.frames.entries.length := (List.get?_eq_some.mp hF0).1
  have hPT : vm.pages.find F.page_id = some ⟨f₀, true⟩ :=
    c7 f₀ hlt F (by rw [hF0]; rfl) hprev
  have hpne : p ≠ F.page_id := by
    intro hpe
    apply hmiss
    rw [hpe, hPT]
    rfl
  unfold VirtualMemory.retrieve_frame at hret
  simp only [halloc] at hret
  simp only [hF] at hret
  simp only [hPT] at hret
  cases hσ : σ p F.buffer with
  | error e =>
      simp only [hσ, Option.some.injEq, Prod.mk.injEq] at hret
      rw [← hret.1]
      constructor
      · rw [PageTable.find_invalidate_self, hPT]
        rfl
      · exact TLB.find_flush_self vm.tlb F.page_id
  | ok buf =>
      simp only [hσ, Option.some.injEq, Prod.mk.injEq] at hret
      rw [← hret.1]
      constructor
      · show (((vm.pages.invalidate F.page_id).insert p ⟨f₀, true⟩).find
            F.page_id).map Page.valid = some false
        rw [PageTable.find_insert_ne (vm.pages.invalidate F.page_id) p
            ⟨f₀, true⟩ F.page_id (Ne.symm hpne),
          PageTable.find_invalidate_self, hPT]
        rfl
      · exact TLB.find_flush_self vm.tlb F.page_id

/-- Claim C2 witness: the theorem applied to the concrete state reached after
one access of page 0 (sizes 1/1/1, backing store [9, 8]); retrieving page 1
victimizes frame 0, whose previous owner is page 0. -/
theorem c2_witness :
    ((retrieveOut (storageOf [9, 8]) (vmAfter 1 1 1 [9, 8] [⟨0, 0, 0⟩]) 1).1.pages.find
        0).map Page.valid = some false ∧
    (retrieveOut (storageOf [9, 8]) (vmAfter 1 1 1 [9, 8] [⟨0, 0, 0⟩]) 1).1.tlb.find 0
      = none :=
  c2_retrieve_coherence (storageOf [9, 8]) (vmAfter 1 1 1 [9, 8] [⟨0, 0, 0⟩]) 1 0
    ⟨1, 1, [⟨[9], 0⟩], [], [0]⟩ ⟨[9], 0⟩
    (retrieveOut (storageOf [9, 8]) (vmAfter 1 1 1 [9, 8] [⟨0, 0, 0⟩]) 1).1
    (retrieveOut (storageOf [9, 8]) (vmAfter 1 1 1 [9, 8] [⟨0, 0, 0⟩]) 1).2
    (by decide) (by decide) (by decide) (by decide) (by decide) (by decide)

/-! ## Claim C9 — storage errors propagate without rollback -/

/-- A failed `access` can only come out of the fault path: the TLB missed, the
page was not valid-resident, and the error is the propagated result of
`retrieve_frame` on the attempted-counter-bumped state. -/
theorem VirtualMemory.access_error_spec (σ : StorageFn) (vm : VirtualMemory)
    (va : VirtualAddress) (vm' : VirtualMemory) (e : Unit)
    (hacc : vm.access σ va = some (vm', Except.error e)) :
    vm.tlb.find va.number_page = none ∧
    ¬ (vm.pages.find va.number_page).map Page.valid = some true ∧
    VirtualMemory.retrieve_frame σ
        { vm with tracker :=
            { vm.tracker with attempted_memory_accesses :=
                vm.tracker.attempted_memory_accesses + 1 } } va.number_page
      = some (vm', Except.error e) := by
  unfold VirtualMemory.access at hacc
  cases hT : vm.tlb.find va.number_page with
  | some f =>
      exfalso
      simp only [hT] at hacc
      cases hF : vm.frames.entries.get? f with
      | none =>
          simp only [hF] at hacc
          exact Option.noConfusion hacc
      | some F =>
          cases hb : F.buffer.get? va.number_offset with
          | none =>
              simp only [hF, hb] at hacc
              exact Option.noConfusion hacc
          | some b =>
              simp only [hF, hb, Option.some.injEq, Prod.mk.injEq] at hacc
              exact Except.noConfusion hacc.2
  | none =>
      simp only [hT] at hacc
      refine ⟨rfl, ?_⟩
      cases hP : vm.pages.find va.number_page with
      | some page =>
          cases hV : page.valid with
          | true =>
              exfalso
              simp only [hP, hV, if_true] at hacc
              cases hF : vm.frames.entries.get? page.frame_index with
              | none =>
                  simp only [hF] at hacc
                  exact Option.noConfusion hacc
              | some F =>
                  cases hb : F.buffer.get? va.number_offset with
                  | none =>
                      simp only [hF, hb] at hacc
                      exact Option.noConfusion hacc
                  | some b =>
                      simp only [hF, hb, Option.some.injEq, Prod.mk.injEq] at hacc
                      exact Except.noConfusion hacc.2
          | false =>
              simp only [hP, hV, Bool.false_eq_true, if_false] at hacc
              refine ⟨by simp [hP, hV], ?_⟩
              cases hR : VirtualMemory.retrieve_frame σ
                  { vm with tracker :=
                      { vm.tracker with attempted_memory_accesses :=
                          vm.tracker.attempted_memory_accesses + 1 } }
                  va.number_page with
              | none =>
                  exfalso
                  simp only [hR] at hacc
                  exact Option.noConfusion hacc
              | some out =>
                  obtain ⟨vmR, er | fi⟩ := out
                  · simp only [hR, Option.some.injEq, Prod.mk.injEq] at hacc
                    cases er
                    cases e
                    rw [hacc.1]
                  · exfalso
                    simp only [hR] at hacc
                    cases hF : vmR.frames.entries.get? fi with
                    | none =>
                        simp only [hF] at hacc
                        exact Option.noConfusion hacc
                    | some F =>
                        cases hb : F.buffer.get? va.number_offset with
                        | none =>
                            simp only [hF, hb] at hacc
                            exact Option.noConfusion hacc
                        | some b =>
                            simp only [hF, hb, Option.some.injEq,
                              Prod.mk.injEq] at hacc
                            exact Except.noConfusion hacc.2
      | none =>
          simp only [hP] at hacc
          refine ⟨by simp [hP], ?_⟩
          cases hR : VirtualMemory.retrieve_frame σ
              { vm with tracker :=
                  { vm.tracker with attempted_memory_accesses :=
                      vm.tracker.attempted_memory_accesses + 1 } }
              va.number_page with
          | none =>
              exfalso
              simp only [hR] at hacc
              exact Option.noConfusion hacc
          | some out =>
              obtain ⟨vmR, er | fi⟩ := out
              · simp only [hR, Option.some.injEq, Prod.mk.injEq] at hacc
                cases er
                cases e
                rw [hacc.1]
              · exfalso
                simp only [hR] at hacc
                cases hF : vmR.frames.entries.get? fi with
                | none =>
                    simp only [hF] at hacc
                    exact Option.noConfusion hacc
                | some F =>
                    cases hb : F.buffer.get? va.number_offset with
                    | none =>
                        simp only [hF, hb] at hacc
                        exact Option.noConfusion hacc
                    | some b =>
                        simp only [hF, hb, Option.some.injEq,
                          Prod.mk.injEq] at hacc
                        exact Except.noConfusion hacc.2

/-- The state left behind by a `retrieve_frame` whose storage read failed
(victim's owner has a page-table entry): the owner is invalidated and flushed,
and the frame's owner id is already reassigned, but no new page-table entry is
inserted. -/
theorem VirtualMemory.retrieve_frame_error_state (σ : StorageFn)
    (vmB : VirtualMemory) (p : Nat) (vmR : VirtualMemory) (e : Unit)
    (f₀ : Nat) (ft₁ : FrameTable) (F : Frame) (pg : Page)
    (halloc : vmB.frames.allocate = some (f₀, ft₁))
    (hF : ft₁.entries.get? f₀ = some F)
    (hpg : vmB.pages.find F.page_id = some pg)
    (hret : vmB.retrieve_frame σ p = some (vmR, Except.error e)) :
    vmR.pages = vmB.pages.invalidate F.page_id ∧
    vmR.tlb = (vmB.tlb.flush_element F.page_id).2 ∧
    vmR.frames.entries = ft₁.entries.set f₀ { F with page_id := p } := by
  unfold VirtualMemory.retrieve_frame at hret
  simp only [halloc] at hret
  simp only [hF] at hret
  simp only [hpg] at hret
  cases hσ : σ p F.buffer with
  | error e' =>
      simp only [hσ, Option.some.injEq, Prod.mk.injEq] at hret
      rw [← hret.1]
      exact ⟨rfl, rfl, rfl⟩
  | ok buf =>
      exfalso
      simp only [hσ, Option.some.injEq, Prod.mk.injEq] at hret
      exact Except.noConfusion hret.2

/-- Claim C9: if the storage read inside `retrieve_frame` fails, `access`
propagates the error; the requested page is not installed as valid, but the
already-performed mutations are kept: the victim's previous owner (a page
with a table entry) is invalid, its TLB entry is gone, and the victim frame's
owner id is already the requested page — no rollback. -/
theorem c9_error_no_rollback (σ : StorageFn) (vm : VirtualMemory)
    (va : VirtualAddress) (vm' : VirtualMemory) (e : Unit)
    (f₀ : Nat) (ft₁ : FrameTable) (F : Frame) (pg : Page)
    (hacc : vm.access σ va = some (vm', Except.error e))
    (halloc : vm.frames.allocate = some (f₀, ft₁))
    (hF : ft₁.entries.get? f₀ = some F)
    (hpg : vm.pages.find F.page_id = some pg) :
    (vm'.pages.find F.page_id).map Page.valid = some false ∧
    vm'.tlb.find F.page_id = none ∧
    (vm'.frames.entries.get? f₀).map Frame.page_id = some va.number_page ∧
    ¬ (vm'.pages.find va.number_page).map Page.valid = some true := by
  obtain ⟨hT, hmiss, hret⟩ := VirtualMemory.access_error_spec σ vm va vm' e hacc
  obtain ⟨hpg', htlb', hent'⟩ :=
    VirtualMemory.retrieve_frame_error_state σ
      { vm with tracker :=
          { vm.tracker with attempted_memory_accesses :=
              vm.tracker.attempted_memory_accesses + 1 } }
      va.number_page vm' e f₀ ft₁ F pg halloc hF hpg hret
  have hFlen : f₀ < ft₁.entries.length := (List.get?_eq_some.mp hF).1
  refine ⟨?_, ?_, ?_, ?_⟩
  · rw [hpg']
    show ((vm.pages.invalidate F.page_id).find F.page_id).map Page.valid
      = some false
    rw [PageTable.find_invalidate_self, hpg]
    rfl
  · rw [htlb']
    exact TLB.find_flush_self vm.tlb F.page_id
  · rw [hent']
    rw [List.get?_set_eq]
    rw [hF]
    rfl
  · rw [hpg']
    by_cases hpe : va.number_page = F.page_id
    · show ¬ ((vm.pages.invalidate F.page_id).find va.number_page).map Page.valid
        = some true
      rw [hpe, PageTable.find_invalidate_self, hpg]
      intro hcon
      simp at hcon
    · show ¬ ((vm.pages.invalidate F.page_id).find va.number_page).map Page.valid
        = some true
      rw [PageTable.find_invalidate_ne _ _ _ hpe]
      exact hmiss

/-- Claim C9 witness: the theorem applied to the state after one access of
page 0 (sizes 1/1/1, backing store [9, 8]) with a storage handle whose read
fails while paging in page 1. -/
theorem c9_witness :
    (((accessOut storageFail (vmAfter 1 1 1 [9, 8] [⟨0, 0, 0⟩])
        ⟨1, 0, 0⟩).1).pages.find 0).map Page.valid = some false ∧
    ((accessOut storageFail (vmAfter 1 1 1 [9, 8] [⟨0, 0, 0⟩])
        ⟨1, 0, 0⟩).1).tlb.find 0 = none ∧
    (((accessOut storageFail (vmAfter 1 1 1 [9, 8] [⟨0, 0, 0⟩])
        ⟨1, 0, 0⟩).1).frames.entries.get? 0).map Frame.page_id = some 1 ∧
    ¬ (((accessOut storageFail (vmAfter 1 1 1 [9, 8] [⟨0, 0, 0⟩])
        ⟨1, 0, 0⟩).1).pages.find 1).map Page.valid = some true :=
  c9_error_no_rollback storageFail (vmAfter 1 1 1 [9, 8] [⟨0, 0, 0⟩]) ⟨1, 0, 0⟩
    (accessOut storageFail (vmAfter 1 1 1 [9, 8] [⟨0, 0, 0⟩]) ⟨1, 0, 0⟩).1 ()
    0 ⟨1, 1, [⟨[9], 0⟩], [], [0]⟩ ⟨[9], 0⟩ ⟨0, true⟩
    (by decide) (by decide) (by decide) (by decide)

/-! ## Claim C7 — `allocate` never panics once built -/

/-- A single `allocate` succeeds and preserves the queue occupancy whenever
the two queues together hold exactly `table_size ≥ 1` entries. -/
theorem FrameTable.allocate_total (ft : FrameTable)
    (hsum : ft.available.length + ft.victimizer.length = ft.table_size)
    (hts : 1 ≤ ft.table_size) :
    ∃ f₀ ft', ft.allocate = some (f₀, ft') ∧
      ft'.available.length + ft'.victimizer.length = ft'.table_size ∧
      ft'.table_size = ft.table_size := by
  unfold FrameTable.allocate
  by_cases hv : ft.victimizer.length = ft.table_size
  · have hvne : ft.victimizer ≠ [] := by
      intro h0
      rw [h0] at hv
      simp only [List.length_nil] at hv
      omega
    unfold FrameTable.reaper
    cases hV : ft.victimizer.getLast? with
    | none => exact absurd (List.getLast?_eq_none_iff.mp hV) hvne
    | some t =>
        simp only [if_pos hv, hV]
        have havail : ft.available.length = 0 := by omega
        cases hL : (t :: ft.available).getLast? with
        | none => exact absurd (List.getLast?_eq_none_iff.mp hL) (by simp)
        | some i =>
            refine ⟨i, _, rfl, ?_, rfl⟩
            simp only [List.length_dropLast, List.length_cons]
            have h1 : 1 ≤ ft.victimizer.length := by omega
            omega
  · have havail : 1 ≤ ft.available.length := by omega
    have havne : ft.available ≠ [] := by
      intro h0
      rw [h0] at havail
      simp at havail
    simp only [if_neg hv]
    cases hL : ft.available.getLast? with
    | none => exact absurd (List.getLast?_eq_none_iff.mp hL) havne
    | some i =>
        refine ⟨i, _, rfl, ?_, rfl⟩
        simp only [List.length_dropLast, List.length_cons]
        omega

/-- Claim C7: for a frame table built with `table_size ≥ 1`, every sequence of
`allocate` calls succeeds — the `expect` panic branch (and the reaper's) is
unreachable: construction enqueues every index into `available`, and whenever
the victimizer holds `table_size` entries a victim is reclaimed first. -/
theorem c7_allocate_total (table_size frame_size n : Nat)
    (hts : 1 ≤ table_size) :
    (allocN n (FrameTable.build table_size frame_size)).isSome = true := by
  suffices h : ∀ m (ft : FrameTable),
      ft.available.length + ft.victimizer.length = ft.table_size →
      1 ≤ ft.table_size → (allocN m ft).isSome = true by
    apply h
    · show (List.range table_size).reverse.length + List.length [] = table_size
      simp
    · exact hts
  intro m
  induction m with
  | zero =>
      intro ft _ _
      rfl
  | succ m ih =>
      intro ft hsum hts1
      obtain ⟨f₀, ft', hall, hsum', hts'⟩ := FrameTable.allocate_total ft hsum hts1
      unfold allocN
      rw [hall]
      exact ih ft' hsum' (by rw [hts']; exact hts1)

/-- Claim C7 witness: five allocations from a table of size 2 all succeed. -/
theorem c7_witness : (allocN 5 (FrameTable.build 2 4)).isSome = true :=
  c7_allocate_total 2 4 5 (by decide)

/-! ## State characterization of the page-fault path -/

/-- The state built by a successful `retrieve_frame`: the victim frame is
reloaded (owner reassigned, buffer replaced by the storage read), the new
page-table entry is installed, and — exactly when the victim's previous owner
had a page-table entry — that owner is invalidated and flushed from the
TLB. -/
theorem VirtualMemory.retrieve_frame_ok_state (σ : StorageFn)
    (vmB : VirtualMemory) (p : Nat) (vmR : VirtualMemory) (fi : Nat)
    (hret : vmB.retrieve_frame σ p = some (vmR, Except.ok fi)) :
    ∃ ft₁ F buf,
      vmB.frames.allocate = some (fi, ft₁) ∧
      ft₁.entries.get? fi = some F ∧
      σ p F.buffer = Except.ok buf ∧
      vmR.frames = { ft₁ with entries := ft₁.entries.set fi ⟨buf, p⟩ } ∧
      ((vmB.pages.find F.page_id = none ∧
          vmR.pages = vmB.pages.insert p ⟨fi, true⟩ ∧ vmR.tlb = vmB.tlb) ∨
        (∃ pg, vmB.pages.find F.page_id = some pg ∧
          vmR.pages = (vmB.pages.invalidate F.page_id).insert p ⟨fi, true⟩ ∧
          vmR.tlb = (vmB.tlb.flush_element F.page_id).2)) := by
  unfold VirtualMemory.retrieve_frame at hret
  cases hA : vmB.frames.allocate with
  | none =>
      simp only [hA] at hret
      exact Option.noConfusion hret
  | some out =>
      obtain ⟨f₀, ft₁⟩ := out
      simp only [hA] at hret
      cases hF : ft₁.entries.get? f₀ with
      | none =>
          simp only [hF] at hret
          exact Option.noConfusion hret
      | some F =>
          simp only [hF] at hret
          cases hpg : vmB.pages.find F.page_id with
          | none =>
              simp only [hpg] at hret
              cases hσ : σ p F.buffer with
              | error e' =>
                  exfalso
                  simp only [hσ, Option.some.injEq, Prod.mk.injEq] at hret
                  exact Except.noConfusion hret.2
              | ok buf =>
                  simp only [hσ, Option.some.injEq, Prod.mk.injEq,
                    Except.ok.injEq] at hret
                  obtain ⟨h1, h2⟩ := hret
                  subst h2
                  refine ⟨ft₁, F, buf, rfl, hF, hσ, ?_, Or.inl ⟨hpg, ?_, ?_⟩⟩ <;>
                    rw [← h1]
          | some pg =>
              simp only [hpg] at hret
              cases hσ : σ p F.buffer with
              | error e' =>
                  exfalso
                  simp only [hσ, Option.some.injEq, Prod.mk.injEq] at hret
                  exact Except.noConfusion hret.2
              | ok buf =>
                  simp only [hσ, Option.some.injEq, Prod.mk.injEq,
                    Except.ok.injEq] at hret
                  obtain ⟨h1, h2⟩ := hret
                  subst h2
                  refine ⟨ft₁, F, buf, rfl, hF, hσ, ?_,
                    Or.inr ⟨pg, hpg, ?_, ?_⟩⟩ <;> rw [← h1]

/-- Complete case split of a non-panicking `access` over the three hit/fault
paths (plus the propagated-error case), with the relation between the pre and
post states on each path. -/
theorem VirtualMemory.access_cases (σ : StorageFn) (vm : VirtualMemory)
    (va : VirtualAddress) (vm' : VirtualMemory) (r : Except Unit AccessResult)
    (hacc : vm.access σ va = some (vm', r)) :
    ((∃ f, vm.tlb.find va.number_page = some f) ∧
       vm'.tlb = vm.tlb ∧ vm'.pages = vm.pages ∧ vm'.frames = vm.frames) ∨
    (∃ pg, vm.tlb.find va.number_page = none ∧
       vm.pages.find va.number_page = some pg ∧ pg.valid = true ∧
       vm'.tlb = vm.tlb.cache_element va.number_page pg.frame_index ∧
       vm'.pages = vm.pages ∧ vm'.frames = vm.frames) ∨
    (∃ vmR fi, vm.tlb.find va.number_page = none ∧
       (¬ (vm.pages.find va.number_page).map Page.valid = some true) ∧
       VirtualMemory.retrieve_frame σ
           { vm with tracker :=
               { vm.tracker with attempted_memory_accesses :=
                   vm.tracker.attempted_memory_accesses + 1 } } va.number_page
         = some (vmR, Except.ok fi) ∧
       vm'.tlb = vmR.tlb.cache_element va.number_page fi ∧
       vm'.pages = vmR.pages ∧ vm'.frames = vmR.frames) ∨
    (∃ e, r = Except.error e) := by
  unfold VirtualMemory.access at hacc
  cases hT : vm.tlb.find va.number_page with
  | some f =>
      simp only [hT] at hacc
      cases hF : vm.frames.entries.get? f with
      | none =>
          simp only [hF] at hacc
          exact Option.noConfusion hacc
      | some F =>
          cases hb : F.buffer.get? va.number_offset with
          | none =>
              simp only [hF, hb] at hacc
              exact Option.noConfusion hacc
          | some b =>
              simp only [hF, hb, Option.some.injEq, Prod.mk.injEq] at hacc
              refine Or.inl ⟨⟨f, rfl⟩, ?_, ?_, ?_⟩ <;> rw [← hacc.1]
  | none =>
      simp only [hT] at hacc
      cases hP : vm.pages.find va.number_page with
      | some page =>
          cases hV : page.valid with
          | true =>
              simp only [hP, hV, if_true] at hacc
              cases hF : vm.frames.entries.get? page.frame_index with
              | none =>
                  simp only [hF] at hacc
                  exact Option.noConfusion hacc
              | some F =>
                  cases hb : F.buffer.get? va.number_offset with
                  | none =>
                      simp only [hF, hb] at hacc
                      exact Option.noConfusion hacc
                  | some b =>
                      simp only [hF, hb, Option.some.injEq, Prod.mk.injEq] at hacc
                      refine Or.inr (Or.inl ⟨page, rfl, rfl, hV, ?_, ?_, ?_⟩) <;>
                        rw [← hacc.1]
          | false =>
              simp only [hP, hV, Bool.false_eq_true, if_false] at hacc
              cases hR : VirtualMemory.retrieve_frame σ
                  { vm with tracker :=
                      { vm.tracker with attempted_memory_accesses :=
                          vm.tracker.attempted_memory_accesses + 1 } }
                  va.number_page with
              | none =>
                  simp only [hR] at hacc
                  exact Option.noConfusion hacc
              | some out =>
                  obtain ⟨vmR, er | fi⟩ := out
                  · simp only [hR, Option.some.injEq, Prod.mk.injEq] at hacc
                    exact Or.inr (Or.inr (Or.inr ⟨er, hacc.2.symm⟩))
                  · simp only [hR] at hacc
                    cases hF : vmR.frames.entries.get? fi with
                    | none =>
                        simp only [hF] at hacc
                        exact Option.noConfusion hacc
                    | some F =>
                        cases hb : F.buffer.get? va.number_offset with
                        | none =>
                            simp only [hF, hb] at hacc
                            exact Option.noConfusion hacc
                        | some b =>
                            simp only [hF, hb, Option.some.injEq,
                              Prod.mk.injEq] at hacc
                            refine Or.inr (Or.inr (Or.inl
                              ⟨vmR, fi, rfl, by simp [hP, hV], rfl,
                                ?_, ?_, ?_⟩)) <;> rw [← hacc.1]
      | none =>
          simp only [hP] at hacc
          cases hR : VirtualMemory.retrieve_frame σ
              { vm with tracker :=
                  { vm.tracker with attempted_memory_accesses :=
                      vm.tracker.attempted_memory_accesses + 1 } }
              va.number_page with
          | none =>
              simp only [hR] at hacc
              exact Option.noConfusion hacc
          | some out =>
              obtain ⟨vmR, er | fi⟩ := out
              · simp only [hR, Option.some.injEq, Prod.mk.injEq] at hacc
                exact Or.inr (Or.inr (Or.inr ⟨er, hacc.2.symm⟩))
              · simp only [hR] at hacc
                cases hF : vmR.frames.entries.get? fi with
                | none =>
                    simp only [hF] at hacc
                    exact Option.noConfusion hacc
                | some F =>
                    cases hb : F.buffer.get? va.number_offset with
                    | none =>
                        simp only [hF, hb] at hacc
                        exact Option.noConfusion hacc
                    | some b =>
                        simp only [hF, hb, Option.some.injEq,
                          Prod.mk.injEq] at hacc
                        refine Or.inr (Or.inr (Or.inl
                          ⟨vmR, fi, rfl, by simp [hP], rfl,
                            ?_, ?_, ?_⟩)) <;> rw [← hacc.1]

/-- `allocate` conserves the total queue occupancy, and every index in the
post-state queues was already in one of the pre-state queues. -/
theorem FrameTable.allocate_queues {ft : FrameTable} {f₀ : Nat}
    {ft' : FrameTable} (h : ft.allocate = some (f₀, ft')) :
    ft'.available.length + ft'.victimizer.length
      = ft.available.length + ft.victimizer.length ∧
    (∀ x ∈ ft'.available, x ∈ ft.available ∨ x ∈ ft.victimizer) ∧
    (∀ x ∈ ft'.victimizer, x ∈ ft.available ∨ x ∈ ft.victimizer) ∧
    (f₀ ∈ ft.available ∨ f₀ ∈ ft.victimizer) := by
  unfold FrameTable.allocate at h
  by_cases hv : ft.victimizer.length = ft.table_size
  · simp only [if_pos hv] at h
    unfold FrameTable.reaper at h
    cases hV : ft.victimizer.getLast? with
    | none =>
        simp only [hV] at h
        exact Option.noConfusion h
    | some t =>
        simp only [hV] at h
        cases hL : (t :: ft.available).getLast? with
        | none =>
            simp only [hL] at h
            exact Option.noConfusion h
        | some i =>
            simp only [hL, Option.some.injEq, Prod.mk.injEq] at h
            rw [← h.2]
            have htmem : t ∈ ft.victimizer := List.mem_of_mem_getLast? hV
            have himem : i ∈ t :: ft.available := List.mem_of_mem_getLast? hL
            have hvlen : 1 ≤ ft.victimizer.length :=
              List.length_pos.mpr (fun h0 => by
                rw [h0] at htmem
                exact absurd htmem (List.not_mem_nil t))
            refine ⟨?_, ?_, ?_, ?_⟩
            · simp only [List.length_dropLast, List.length_cons]
              omega
            · intro x hx
              have hx2 : x ∈ t :: ft.available := List.mem_of_mem_dropLast hx
              rcases List.mem_cons.mp hx2 with h0 | h0
              · exact Or.inr (h0 ▸ htmem)
              · exact Or.inl h0
            · intro x hx
              rcases List.mem_cons.mp hx with h0 | h0
              · rcases List.mem_cons.mp (h0 ▸ himem) with h1 | h1
                · exact Or.inr (h1 ▸ htmem)
                · exact Or.inl h1
              · exact Or.inr (List.mem_of_mem_dropLast h0)
            · rw [← h.1]
              rcases List.mem_cons.mp himem with h1 | h1
              · exact Or.inr (h1 ▸ htmem)
              · exact Or.inl h1
  · simp only [if_neg hv] at h
    cases hL : ft.available.getLast? with
    | none =>
        simp only [hL] at h
        exact Option.noConfusion h
    | some i =>
        simp only [hL, Option.some.injEq, Prod.mk.injEq] at h
        rw [← h.2]
        have himem : i ∈ ft.available := List.mem_of_mem_getLast? hL
        have halen : 1 ≤ ft.available.length :=
          List.length_pos.mpr (fun h0 => by
            rw [h0] at himem
            exact absurd himem (List.not_mem_nil i))
        refine ⟨?_, ?_, ?_, ?_⟩
        · simp only [List.length_dropLast, List.length_cons]
          omega
        · intro x hx
          exact Or.inl (List.mem_of_mem_dropLast hx)
        · intro x hx
          rcases List.mem_cons.mp hx with h0 | h0
          · exact Or.inl (h0 ▸ himem)
          · exact Or.inr h0
        · rw [← h.1]
          exact Or.inl himem

/-- The file-backed storage preserves the buffer length. -/
theorem storageOf_length {data : List Nat} {m : Nat} {b nb : List Nat}
    (h : storageOf data m b = Except.ok nb) : nb.length = b.length := by
  unfold storageOf Storage.read at h
  simp only [Except.ok.injEq] at h
  rw [← h]
  simp only [List.length_append, List.length_take, List.length_drop]
  omega

/-- The file-backed storage never fails. -/
theorem storageOf_ok (data : List Nat) (m : Nat) (b : List Nat) :
    ∃ nb, storageOf data m b = Except.ok nb :=
  ⟨_, rfl⟩

/-- An in-range file read returns exactly the addressed slice. -/
theorem storageOf_in_range {data : List Nat} {p : Nat} {b : List Nat}
    (h : b.length * (p + 1) ≤ data.length) :
    storageOf data p b = Except.ok ((data.drop (b.length * p)).take b.length) := by
  have hk : min b.length (data.length - b.length * p) = b.length := by
    rw [Nat.mul_succ] at h
    omega
  unfold storageOf Storage.read
  simp only [hk, List.drop_length, List.append_nil]

/-- A `find` result is an entry of the page table. -/
theorem PageTable.find_mem {pt : PageTable} {q : Nat} {pg : Page}
    (h : pt.find q = some pg) : (q, pg) ∈ pt.entries := by
  unfold PageTable.find at h
  rcases Option.map_eq_some'.mp h with ⟨e, he, hev⟩
  have h1 := List.mem_of_find?_eq_some he
  have h2 := List.find?_some he
  have h3 : e = (q, pg) := by
    obtain ⟨e1, e2⟩ := e
    simp_all
  exact h3 ▸ h1

/-- A missing `find` means no entry carries the key. -/
theorem PageTable.find_none {pt : PageTable} {q : Nat}
    (h : pt.find q = none) : ∀ e ∈ pt.entries, e.1 ≠ q := by
  unfold PageTable.find at h
  have h0 : pt.entries.find? (fun e => e.1 == q) = none := Option.map_eq_none'.mp h
  intro e he heq
  have h1 := List.find?_eq_none.mp h0 e he
  simp [heq] at h1

/-- A valid page-table entry is determined by its frame index. -/
theorem Page.eq_mk_of_valid {pg : Page} (h : pg.valid = true) :
    pg = ⟨pg.frame_index, true⟩ := by
  obtain ⟨fi, v⟩ := pg
  simp only at h
  rw [h]

/-- The control invariant only depends on the TLB, page table and frame
table. -/
theorem InvCtl_of_eq {vm vm' : VirtualMemory} (h1 : vm'.tlb = vm.tlb)
    (h2 : vm'.pages = vm.pages) (h3 : vm'.frames = vm.frames)
    (h : InvCtl vm) : InvCtl vm' := by
  unfold InvCtl at h ⊢
  rw [h1, h2, h3]
  exact h

/-- The data invariant only depends on the page table and frame table. -/
theorem InvData_of_eq {data : List Nat} {vm vm' : VirtualMemory}
    (h2 : vm'.pages = vm.pages) (h3 : vm'.frames = vm.frames)
    (h : InvData data vm) : InvData data vm' := by
  unfold InvData at h ⊢
  rw [h2, h3]
  exact h

/-- The page-fault path — a successful `retrieve_frame` followed by caching
the new translation — preserves the control invariant under the file-backed
storage (which never fails), for a faulting page below 256 (`u8`). -/
theorem fault_preserves_ctl (data : List Nat) (vmB vmR : VirtualMemory)
    (p fi : Nat) (hp : p < 256)
    (hinv : InvCtl vmB)
    (hmiss : ¬ (vmB.pages.find p).map Page.valid = some true)
    (hret : vmB.retrieve_frame (storageOf data) p = some (vmR, Except.ok fi)) :
    InvCtl { vmR with tlb := vmR.tlb.cache_element p fi } ∧
    vmR.frames.frame_size = vmB.frames.frame_size ∧
    vmR.frames.table_size = vmB.frames.table_size := by
  obtain ⟨c1, c2, c3, c4, c5, c6, c7, c8⟩ := hinv
  obtain ⟨ft₁, F, buf, hA, hFi, hσ, hfr, hcase⟩ :=
    VirtualMemory.retrieve_frame_ok_state _ vmB p vmR fi hret
  obtain ⟨hent, hts, hfs⟩ := FrameTable.allocate_fields hA
  obtain ⟨hqlen, hqa, hqv, -⟩ := FrameTable.allocate_queues hA
  have hF0 : vmB.frames.entries.get? fi = some F := by rw [← hent]; exact hFi
  have hfi_lt : fi < vmB.frames.entries.length := (List.get?_eq_some.mp hF0).1
  have hFmem : F ∈ vmB.frames.entries := List.get?_mem hF0
  have hbuflen : buf.length = F.buffer.length := storageOf_length hσ
  have hpn : p ≠ USIZE_MAX := by
    intro h0
    rw [h0] at hp
    norm_num [USIZE_MAX] at hp
  have hE : vmR.frames.entries = ft₁.entries.set fi ⟨buf, p⟩ := by rw [hfr]
  have hQa : vmR.frames.available = ft₁.available := by rw [hfr]
  have hQv : vmR.frames.victimizer = ft₁.victimizer := by rw [hfr]
  have hTS : vmR.frames.table_size = vmB.frames.table_size := by rw [hfr]; exact hts
  have hFS : vmR.frames.frame_size = vmB.frames.frame_size := by rw [hfr]; exact hfs
  have hvalid_ne_p : ∀ q i0, vmB.pages.find q = some ⟨i0, true⟩ → q ≠ p := by
    intro q i0 hfq hqp
    apply hmiss
    rw [← hqp, hfq]
    rfl
  have howner : F.page_id ≠ USIZE_MAX →
      vmB.pages.find F.page_id = some ⟨fi, true⟩ := by
    intro h0
    exact c7 fi hfi_lt F (by rw [hF0]; rfl) h0
  have hfindp : vmR.pages.find p = some ⟨fi, true⟩ := by
    rcases hcase with ⟨-, hPq, -⟩ | ⟨pg, -, hPq, -⟩ <;>
      rw [hPq, PageTable.find_insert_self]
  refine ⟨?_, hFS, hTS⟩
  unfold InvCtl
  dsimp only
  refine ⟨?_, ?_, ?_, ?_, ?_, ?_, ?_, ?_⟩
  · -- entries length
    rw [hE, hTS, List.length_set, hent]
    exact c1
  · -- queue occupancy
    rw [hQa, hQv, hTS, hqlen]
    exact c2
  · -- available members bounded
    rw [hQa, hTS]
    intro i hi
    rcases hqa i hi with h | h
    · exact c3 i h
    · exact c4 i h
  · -- victimizer members bounded
    rw [hQv, hTS]
    intro i hi
    rcases hqv i hi with h | h
    · exact c3 i h
    · exact c4 i h
  · -- buffer lengths
    rw [hE, hFS]
    intro G hG
    rcases List.mem_or_eq_of_mem_set hG with h | h
    · exact c5 G (by rw [← hent]; exact h)
    · rw [h]
      show buf.length = vmB.frames.frame_size
      rw [hbuflen]
      exact c5 F hFmem
  · -- TLB entries point to valid page-table entries
    intro e he
    rcases TLB.mem_cache_elim he with h | h
    · rcases hcase with ⟨hprevnone, hPq, hTq⟩ | ⟨pg, hprev, hPq, hTq⟩
      · rw [hTq] at h
        have h6 := c6 e h
        have hep : e.1 ≠ p := hvalid_ne_p e.1 e.2 h6
        rw [hPq, PageTable.find_insert_ne _ _ _ _ hep]
        exact h6
      · rw [hTq] at h
        obtain ⟨hmem, hneq⟩ := TLB.mem_flush_elim h
        have h6 := c6 e hmem
        have hep : e.1 ≠ p := hvalid_ne_p e.1 e.2 h6
        rw [hPq, PageTable.find_insert_ne _ _ _ _ hep,
          PageTable.find_invalidate_ne _ _ _ hneq]
        exact h6
    · rw [h]
      exact hfindp
  · -- frame owners have valid page-table entries
    rw [hE]
    intro i hi G hG hGmax
    rw [List.length_set, hent] at hi
    by_cases hif : i = fi
    · subst hif
      rw [Option.mem_def, List.get?_set_eq, hFi] at hG
      simp only [Option.map_eq_map, Option.map_some', Option.some.injEq] at hG
      rw [← hG]
      exact hfindp
    · rw [List.get?_set_ne _ _ (fun h0 => hif h0.symm), hent] at hG
      have h7 := c7 i hi G hG hGmax
      have hqp : G.page_id ≠ p := hvalid_ne_p G.page_id i h7
      rcases hcase with ⟨hprevnone, hPq, hTq⟩ | ⟨pg, hprev, hPq, hTq⟩
      · rw [hPq, PageTable.find_insert_ne _ _ _ _ hqp]
        exact h7
      · by_cases hqprev : G.page_id = F.page_id
        · exfalso
          have h9 := howner (by rw [← hqprev]; exact hGmax)
          rw [hqprev] at h7
          rw [h7, Option.some.injEq, Page.mk.injEq] at h9
          exact hif h9.1
        · rw [hPq, PageTable.find_insert_ne _ _ _ _ hqp,
            PageTable.find_invalidate_ne _ _ _ hqprev]
          exact h7
  · -- valid page-table entries own their frames
    rw [hE]
    intro e he hval
    rcases hcase with ⟨hprevnone, hPq, hTq⟩ | ⟨pg, hprev, hPq, hTq⟩
    · rw [hPq] at he
      rcases PageTable.mem_insert_elim he with ⟨hold, hne⟩ | hnew
      · have h8 := c8 e hold hval
        by_cases hei : e.2.frame_index = fi
        · exfalso
          rw [hei, hF0] at h8
          have he1 : F.page_id = e.1 := by simpa using h8
          exact (PageTable.find_none hprevnone e hold) he1.symm
        · rw [List.get?_set_ne _ _ (fun h0 => hei h0.symm), hent]
          exact h8
      · rw [hnew]
        simp only [List.get?_set_eq, hFi, Option.map_eq_map, Option.map_some']
    · rw [hPq] at he
      rcases PageTable.mem_insert_elim he with ⟨hold, hne⟩ | hnew
      · rcases PageTable.mem_invalidate_elim hold with ⟨e0, he0, heq⟩
        by_cases h00 : e0.1 = F.page_id
        · exfalso
          rw [if_pos h00] at heq
          rw [heq] at hval
          exact Bool.noConfusion hval
        · rw [if_neg h00] at heq
          subst heq
          have h8 := c8 e he0 hval
          by_cases hei : e.2.frame_index = fi
          · exfalso
            rw [hei, hF0] at h8
            have he1 : F.page_id = e.1 := by simpa using h8
            exact h00 he1.symm
          · rw [List.get?_set_ne _ _ (fun h0 => hei h0.symm), hent]
            exact h8
      · rw [hnew]
        simp only [List.get?_set_eq, hFi, Option.map_eq_map, Option.map_some']

/-- With the file-backed storage a `retrieve_frame` never returns an error. -/
theorem VirtualMemory.retrieve_storageOf_no_error (data : List Nat)
    (vmB : VirtualMemory) (p : Nat) (vmR : VirtualMemory) (e : Unit)
    (h : vmB.retrieve_frame (storageOf data) p = some (vmR, Except.error e)) :
    False := by
  unfold VirtualMemory.retrieve_frame at h
  cases hA : vmB.frames.allocate with
  | none =>
      simp only [hA] at h
      exact Option.noConfusion h
  | some out =>
      obtain ⟨f₀, ft₁⟩ := out
      simp only [hA] at h
      cases hF : ft₁.entries.get? f₀ with
      | none =>
          simp only [hF] at h
          exact Option.noConfusion h
      | some F =>
          simp only [hF] at h
          cases hpg : vmB.pages.find F.page_id with
          | none =>
              simp only [hpg, storageOf, Storage.read, Option.some.injEq,
                Prod.mk.injEq] at h
              exact Except.noConfusion h.2
          | some pg =>
              simp only [hpg, storageOf, Storage.read, Option.some.injEq,
                Prod.mk.injEq] at h
              exact Except.noConfusion h.2

/-- With the file-backed storage an `access` never returns an error. -/
theorem VirtualMemory.access_storageOf_no_error (data : List Nat)
    (vm : VirtualMemory) (va : VirtualAddress) (vm' : VirtualMemory) (e : Unit)
    (h : vm.access (storageOf data) va = some (vm', Except.error e)) :
    False := by
  obtain ⟨-, -, hret⟩ := VirtualMemory.access_error_spec _ vm va vm' e h
  exact VirtualMemory.retrieve_storageOf_no_error data _ va.number_page vm' e hret

/-- `access` with the file-backed storage preserves the control invariant and
the configured sizes (for a `u8` page number). -/
theorem access_preserves_ctl (data : List Nat) (vm : VirtualMemory)
    (va : VirtualAddress) (vm' : VirtualMemory) (r : Except Unit AccessResult)
    (hp : va.number_page < 256)
    (hinv : InvCtl vm)
    (hacc : vm.access (storageOf data) va = some (vm', r)) :
    InvCtl vm' ∧ vm'.frames.frame_size = vm.frames.frame_size ∧
    vm'.frames.table_size = vm.frames.table_size := by
  rcases VirtualMemory.access_cases _ vm va vm' r hacc with
    ⟨⟨f, hT⟩, h1, h2, h3⟩ | ⟨pg, hT, hP, hv, h1, h2, h3⟩ |
    ⟨vmR, fi, hT, hmiss, hret, h1, h2, h3⟩ | ⟨e, herr⟩
  · exact ⟨InvCtl_of_eq h1 h2 h3 hinv, by rw [h3], by rw [h3]⟩
  · refine ⟨?_, by rw [h3], by rw [h3]⟩
    obtain ⟨c1, c2, c3, c4, c5, c6, c7, c8⟩ := hinv
    unfold InvCtl
    rw [h1, h2, h3]
    refine ⟨c1, c2, c3, c4, c5, ?_, c7, c8⟩
    intro e he
    rcases TLB.mem_cache_elim he with h | h
    · exact c6 e h
    · rw [h]
      show vm.pages.find va.number_page = some ⟨pg.frame_index, true⟩
      rw [hP]
      exact congrArg some (Page.eq_mk_of_valid hv)
  · have hinvB : InvCtl { vm with tracker :=
        { vm.tracker with attempted_memory_accesses :=
            vm.tracker.attempted_memory_accesses + 1 } } :=
      InvCtl_of_eq rfl rfl rfl hinv
    obtain ⟨hctl, hfs, hts⟩ :=
      fault_preserves_ctl data _ vmR va.number_page fi hp hinvB hmiss hret
    exact ⟨@InvCtl_of_eq { vmR with tlb := vmR.tlb.cache_element va.number_page fi }
        vm' h1 h2 h3 hctl,
      by rw [h3]; exact hfs, by rw [h3]; exact hts⟩
  · subst herr
    exact absurd hacc (fun h =>
      VirtualMemory.access_storageOf_no_error data vm va vm' e h)

/-- The page-fault path preserves the data invariant when the faulting page is
in range of the backing store. -/
theorem fault_preserves_data (data : List Nat) (vmB vmR : VirtualMemory)
    (p fi : Nat)
    (hrange : vmB.frames.frame_size * (p + 1) ≤ data.length)
    (hinv : InvCtl vmB)
    (hmiss : ¬ (vmB.pages.find p).map Page.valid = some true)
    (hdata : InvData data vmB)
    (hret : vmB.retrieve_frame (storageOf data) p = some (vmR, Except.ok fi)) :
    InvData data vmR := by
  obtain ⟨c1, c2, c3, c4, c5, c6, c7, c8⟩ := hinv
  obtain ⟨ft₁, F, buf, hA, hFi, hσ, hfr, hcase⟩ :=
    VirtualMemory.retrieve_frame_ok_state _ vmB p vmR fi hret
  obtain ⟨hent, hts, hfs⟩ := FrameTable.allocate_fields hA
  have hF0 : vmB.frames.entries.get? fi = some F := by rw [← hent]; exact hFi
  have hfi_lt : fi < vmB.frames.entries.length := (List.get?_eq_some.mp hF0).1
  have hFmem : F ∈ vmB.frames.entries := List.get?_mem hF0
  have hE : vmR.frames.entries = ft₁.entries.set fi ⟨buf, p⟩ := by rw [hfr]
  have hFS : vmR.frames.frame_size = vmB.frames.frame_size := by rw [hfr]; exact hfs
  have hFbuflen : F.buffer.length = vmB.frames.frame_size := c5 F hFmem
  have hbuf : buf = pageImage data vmB.frames.frame_size p := by
    have hread := @storageOf_in_range data p F.buffer
      (by rw [hFbuflen]; exact hrange)
    rw [hσ, Except.ok.injEq] at hread
    rw [hread, hFbuflen]
    rfl
  unfold InvData
  rw [hE, hFS]
  intro e he hval G hG
  rcases hcase with ⟨hprevnone, hPq, hTq⟩ | ⟨pg, hprev, hPq, hTq⟩
  · rw [hPq] at he
    rcases PageTable.mem_insert_elim he with ⟨hold, hne⟩ | hnew
    · have h8 := c8 e hold hval
      by_cases hei : e.2.frame_index = fi
      · exfalso
        rw [hei, hF0] at h8
        have he1 : F.page_id = e.1 := by simpa using h8
        exact (PageTable.find_none hprevnone e hold) he1.symm
      · rw [List.get?_set_ne _ _ (fun h0 => hei h0.symm), hent] at hG
        exact hdata e hold hval G hG
    · rw [hnew] at hG ⊢
      rw [Option.mem_def, List.get?_set_eq, hFi] at hG
      simp only [Option.map_eq_map, Option.map_some', Option.some.injEq] at hG
      rw [← hG]
      exact hbuf
  · rw [hPq] at he
    rcases PageTable.mem_insert_elim he with ⟨hold, hne⟩ | hnew
    · rcases PageTable.mem_invalidate_elim hold with ⟨e0, he0, heq⟩
      by_cases h00 : e0.1 = F.page_id
      · exfalso
        rw [if_pos h00] at heq
        rw [heq] at hval
        exact Bool.noConfusion hval
      · rw [if_neg h00] at heq
        subst heq
        have h8 := c8 e he0 hval
        by_cases hei : e.2.frame_index = fi
        · exfalso
          rw [hei, hF0] at h8
          have he1 : F.page_id = e.1 := by simpa using h8
          exact h00 he1.symm
        · rw [List.get?_set_ne _ _ (fun h0 => hei h0.symm), hent] at hG
          exact hdata e he0 hval G hG
    · rw [hnew] at hG ⊢
      rw [Option.mem_def, List.get?_set_eq, hFi] at hG
      simp only [Option.map_eq_map, Option.map_some', Option.some.injEq] at hG
      rw [← hG]
      exact hbuf

/-- `access` with the file-backed storage preserves the data invariant when
the accessed page is in range. -/
theorem access_preserves_data (data : List Nat) (vm : VirtualMemory)
    (va : VirtualAddress) (vm' : VirtualMemory) (r : Except Unit AccessResult)
    (hrange : vm.frames.frame_size * (va.number_page + 1) ≤ data.length)
    (hinv : InvCtl vm) (hdata : InvData data vm)
    (hacc : vm.access (storageOf data) va = some (vm', r)) :
    InvData data vm' := by
  rcases VirtualMemory.access_cases _ vm va vm' r hacc with
    ⟨⟨f, hT⟩, h1, h2, h3⟩ | ⟨pg, hT, hP, hv, h1, h2, h3⟩ |
    ⟨vmR, fi, hT, hmiss, hret, h1, h2, h3⟩ | ⟨e, herr⟩
  · exact InvData_of_eq h2 h3 hdata
  · exact InvData_of_eq h2 h3 hdata
  · have hinvB : InvCtl { vm with tracker :=
        { vm.tracker with attempted_memory_accesses :=
            vm.tracker.attempted_memory_accesses + 1 } } :=
      InvCtl_of_eq rfl rfl rfl hinv
    have hdataB : InvData data { vm with tracker :=
        { vm.tracker with attempted_memory_accesses :=
            vm.tracker.attempted_memory_accesses + 1 } } :=
      InvData_of_eq rfl rfl hdata
    have hd := fault_preserves_data data
      { vm with tracker :=
          { vm.tracker with attempted_memory_accesses :=
              vm.tracker.attempted_memory_accesses + 1 } }
      vmR va.number_page fi hrange hinvB hmiss hdataB hret
    exact InvData_of_eq h2 h3 hd
  · subst herr
    exact absurd hacc (fun h =>
      VirtualMemory.access_storageOf_no_error data vm va vm' e h)

/-- A freshly built `VirtualMemory` satisfies the control invariant. -/
theorem build_InvCtl (tlb_size frame_table_size frame_size : Nat) :
    InvCtl (VirtualMemory.build tlb_size frame_table_size frame_size) := by
  unfold InvCtl VirtualMemory.build FrameTable.build TLB.build PageTable.build
  dsimp only
  refine ⟨?_, ?_, ?_, ?_, ?_, ?_, ?_, ?_⟩
  · simp
  · simp
  · intro i hi
    rw [List.mem_reverse] at hi
    exact List.mem_range.mp hi
  · intro i hi
    exact absurd hi (List.not_mem_nil i)
  · intro F hF
    rw [List.eq_of_mem_replicate hF]
    simp [Frame.new]
  · intro e he
    exact absurd he (List.not_mem_nil e)
  · intro i hi F hF hmax
    exfalso
    have hFm : F ∈ List.replicate frame_table_size (Frame.new frame_size) :=
      List.get?_mem (Option.mem_def.mp hF)
    rw [List.eq_of_mem_replicate hFm] at hmax
    exact hmax rfl
  · intro e he
    exact absurd he (List.not_mem_nil e)

/-- A freshly built `VirtualMemory` satisfies the data invariant
(vacuously). -/
theorem build_InvData (data : List Nat) (tlb_size frame_table_size frame_size : Nat) :
    InvData data (VirtualMemory.build tlb_size frame_table_size frame_size) := by
  unfold InvData VirtualMemory.build PageTable.build
  intro e he
  exact absurd he (List.not_mem_nil e)

/-- Replaying a trace of `u8` pages preserves the control invariant and the
configured sizes. -/
theorem runAccesses_ctl (data : List Nat) :
    ∀ (tr : List VirtualAddress) (vm vm' : VirtualMemory),
      runAccesses (storageOf data) vm tr = some vm' →
      (∀ a ∈ tr, a.number_page < 256) →
      InvCtl vm →
      InvCtl vm' ∧ vm'.frames.frame_size = vm.frames.frame_size ∧
        vm'.frames.table_size = vm.frames.table_size := by
  intro tr
  induction tr with
  | nil =>
      intro vm vm' hrun _ hinv
      unfold runAccesses at hrun
      rw [Option.some.injEq] at hrun
      rw [← hrun]
      exact ⟨hinv, rfl, rfl⟩
  | cons a rest ih =>
      intro vm vm' hrun hpages hinv
      unfold runAccesses at hrun
      cases hacc : vm.access (storageOf data) a with
      | none =>
          rw [hacc] at hrun
          exact Option.noConfusion hrun
      | some out =>
          obtain ⟨vm1, r⟩ := out
          rw [hacc] at hrun
          obtain ⟨h1, h2, h3⟩ := access_preserves_ctl data vm a vm1 r
            (hpages a (List.mem_cons_self a rest)) hinv hacc
          obtain ⟨g1, g2, g3⟩ := ih vm1 vm' hrun
            (fun x hx => hpages x (List.mem_cons_of_mem a hx)) h1
          exact ⟨g1, by rw [g2, h2], by rw [g3, h3]⟩

/-- Replaying an in-range trace of `u8` pages preserves both invariants and
the configured sizes. -/
theorem runAccesses_inv (data : List Nat) :
    ∀ (tr : List VirtualAddress) (vm vm' : VirtualMemory),
      runAccesses (storageOf data) vm tr = some vm' →
      (∀ a ∈ tr, a.number_page < 256 ∧
        vm.frames.frame_size * (a.number_page + 1) ≤ data.length) →
      InvCtl vm → InvData data vm →
      InvCtl vm' ∧ InvData data vm' ∧
        vm'.frames.frame_size = vm.frames.frame_size ∧
        vm'.frames.table_size = vm.frames.table_size := by
  intro tr
  induction tr with
  | nil =>
      intro vm vm' hrun _ hinv hdata
      unfold runAccesses at hrun
      rw [Option.some.injEq] at hrun
      rw [← hrun]
      exact ⟨hinv, hdata, rfl, rfl⟩
  | cons a rest ih =>
      intro vm vm' hrun hpages hinv hdata
      unfold runAccesses at hrun
      cases hacc : vm.access (storageOf data) a with
      | none =>
          rw [hacc] at hrun
          exact Option.noConfusion hrun
      | some out =>
          obtain ⟨vm1, r⟩ := out
          rw [hacc] at hrun
          obtain ⟨hap, har⟩ := hpages a (List.mem_cons_self a rest)
          obtain ⟨h1, h2, h3⟩ := access_preserves_ctl data vm a vm1 r hap hinv hacc
          have hd1 : InvData data vm1 :=
            access_preserves_data data vm a vm1 r har hinv hdata hacc
          obtain ⟨g1, g2, g3, g4⟩ := ih vm1 vm' hrun
            (fun x hx => ⟨(hpages x (List.mem_cons_of_mem a hx)).1,
              by rw [h2]; exact (hpages x (List.mem_cons_of_mem a hx)).2⟩)
            h1 hd1
          exact ⟨g1, g2, by rw [g3, h2], by rw [g4, h3]⟩

/-! ## Claim C1 — translation emits the backing store's byte -/

/-- Claim C1: along any replay of in-range `u8` pages from a cold start,
every successful `access` that resolves virtual address `va` (page p,
offset o) to frame `f` returns `physical_address = f * frame_size + o`
(as a 32-bit value) and `value` equal to the signed 8-bit reinterpretation of
the byte at offset o of frame f's buffer, which is the backing store's byte
at absolute offset `p * frame_size + o`. -/
theorem c1_access_result_correct
    (data : List Nat) (tlb_size frame_table_size frame_size : Nat)
    (tr : List VirtualAddress) (vm vm' : VirtualMemory) (va : VirtualAddress)
    (res : AccessResult)
    (htr : ∀ a ∈ tr, a.number_page < 256 ∧
      frame_size * (a.number_page + 1) ≤ data.length)
    (hrun : runAccesses (storageOf data)
        (VirtualMemory.build tlb_size frame_table_size frame_size) tr = some vm)
    (hp : va.number_page < 256)
    (hrange : frame_size * (va.number_page + 1) ≤ data.length)
    (hacc : vm.access (storageOf data) va = some (vm', Except.ok res)) :
    ∃ f b, vm'.pages.find va.number_page = some ⟨f, true⟩ ∧
      (vm'.frames.entries.get? f).bind
        (fun F => F.buffer.get? va.number_offset) = some b ∧
      res.physical_address = (f * frame_size + va.number_offset) % 2 ^ 32 ∧
      res.value = toI8 b ∧
      data.get? (va.number_page * frame_size + va.number_offset) = some b := by
  obtain ⟨hinv, hdata, hfs, hts⟩ := runAccesses_inv data tr _ vm hrun htr
    (build_InvCtl tlb_size frame_table_size frame_size)
    (build_InvData data tlb_size frame_table_size frame_size)
  obtain ⟨hinv', hfs1, -⟩ :=
    access_preserves_ctl data vm va vm' (Except.ok res) hp hinv hacc
  have hdata' : InvData data vm' :=
    access_preserves_data data vm va vm' (Except.ok res)
      (by rw [hfs]; exact hrange) hinv hdata hacc
  obtain ⟨f, F, b, hTf, hgF, hgb, hres⟩ :=
    VirtualMemory.access_ok _ vm va vm' res hacc
  have hfs' : vm'.frames.frame_size = frame_size := by
    rw [hfs1]
    exact hfs
  obtain ⟨d1, d2, d3, d4, d5, d6, d7, d8⟩ := hinv'
  have hmem : (va.number_page, f) ∈ vm'.tlb.map := lhmGet_mem hTf
  have hPT : vm'.pages.find va.number_page = some ⟨f, true⟩ := d6 _ hmem
  have hptmem : (va.number_page, (⟨f, true⟩ : Page)) ∈ vm'.pages.entries :=
    PageTable.find_mem hPT
  have himg : F.buffer = pageImage data vm'.frames.frame_size va.number_page :=
    hdata' _ hptmem rfl F (Option.mem_def.mpr hgF)
  have hlenF : F.buffer.length = vm'.frames.frame_size :=
    d5 F (List.get?_mem hgF)
  have hob : va.number_offset < frame_size := by
    have h0 := (List.get?_eq_some.mp hgb).1
    rw [hlenF, hfs'] at h0
    exact h0
  have hdget : data.get? (va.number_page * frame_size + va.number_offset)
      = some b := by
    have hgb2 := hgb
    rw [himg, hfs'] at hgb2
    unfold pageImage at hgb2
    rw [List.get?_take hob, List.get?_drop] at hgb2
    rw [Nat.mul_comm]
    exact hgb2
  refine ⟨f, b, hPT, ?_, ?_, ?_, hdget⟩
  · rw [hgF]
    show F.buffer.get? va.number_offset = some b
    exact hgb
  · rw [hres, hfs']
  · rw [hres]

/-- Claim C1 witness: the theorem applied to a cold access of page 1
(sizes 1/1/1, backing store [9, 8]), which resolves to frame 0 and byte 8. -/
theorem c1_witness :
    ∃ f b,
      (accessOut (storageOf [9, 8]) (VirtualMemory.build 1 1 1)
          ⟨1, 0, 0⟩).1.pages.find 1 = some ⟨f, true⟩ ∧
      ((accessOut (storageOf [9, 8]) (VirtualMemory.build 1 1 1)
          ⟨1, 0, 0⟩).1.frames.entries.get? f).bind
        (fun F => F.buffer.get? 0) = some b ∧
      (⟨⟨1, 0, 0⟩, 0, toI8 8⟩ : AccessResult).physical_address
        = (f * 1 + 0) % 2 ^ 32 ∧
      (⟨⟨1, 0, 0⟩, 0, toI8 8⟩ : AccessResult).value = toI8 b ∧
      [9, 8].get? (1 * 1 + 0) = some b :=
  c1_access_result_correct [9, 8] 1 1 1 [] (VirtualMemory.build 1 1 1)
    (accessOut (storageOf [9, 8]) (VirtualMemory.build 1 1 1) ⟨1, 0, 0⟩).1
    ⟨1, 0, 0⟩ ⟨⟨1, 0, 0⟩, 0, toI8 8⟩
    (by decide) rfl (by decide) (by decide) (by decide)

/-! ## Totality of `access` (frame sizes of at least 256) -/

/-- Evaluation of the page-table-hit path (success form). -/
theorem VirtualMemory.access_pt_hit (σ : StorageFn) (vm : VirtualMemory)
    (va : VirtualAddress) (pg : Page) (F : Frame) (b : Nat)
    (hT : vm.tlb.find va.number_page = none)
    (hP : vm.pages.find va.number_page = some pg)
    (hv : pg.valid = true)
    (hF : vm.frames.entries.get? pg.frame_index = some F)
    (hb : F.buffer.get? va.number_offset = some b) :
    (vm.access σ va).isSome = true := by
  unfold VirtualMemory.access
  simp only [hT, hP, hv, if_true, hF, hb]
  rfl

/-- Evaluation of the fault path when the final buffer read succeeds. -/
theorem VirtualMemory.access_fault_isSome (σ : StorageFn) (vm : VirtualMemory)
    (va : VirtualAddress) (vmR : VirtualMemory) (fi : Nat) (F : Frame) (b : Nat)
    (hT : vm.tlb.find va.number_page = none)
    (hmiss : ¬ (vm.pages.find va.number_page).map Page.valid = some true)
    (hret : VirtualMemory.retrieve_frame σ
        { vm with tracker :=
            { vm.tracker with attempted_memory_accesses :=
                vm.tracker.attempted_memory_accesses + 1 } } va.number_page
      = some (vmR, Except.ok fi))
    (hgF : vmR.frames.entries.get? fi = some F)
    (hgb : F.buffer.get? va.number_offset = some b) :
    (vm.access σ va).isSome = true := by
  unfold VirtualMemory.access
  simp only [hT]
  cases hP : vm.pages.find va.number_page with
  | some pg =>
      cases hv : pg.valid with
      | true =>
          exfalso
          apply hmiss
          rw [hP]
          simp [hv]
      | false =>
          simp only [hP, hv, Bool.false_eq_true, if_false, hret, hgF, hgb]
          rfl
  | none =>
      simp only [hP, hret, hgF, hgb]
      rfl

/-- Evaluation of the fault path when the final buffer read is out of
bounds: `access` panics. -/
theorem VirtualMemory.access_fault_oob (σ : StorageFn) (vm : VirtualMemory)
    (va : VirtualAddress) (vmR : VirtualMemory) (fi : Nat) (F : Frame)
    (hT : vm.tlb.find va.number_page = none)
    (hmiss : ¬ (vm.pages.find va.number_page).map Page.valid = some true)
    (hret : VirtualMemory.retrieve_frame σ
        { vm with tracker :=
            { vm.tracker with attempted_memory_accesses :=
                vm.tracker.attempted_memory_accesses + 1 } } va.number_page
      = some (vmR, Except.ok fi))
    (hgF : vmR.frames.entries.get? fi = some F)
    (hgb : F.buffer.get? va.number_offset = none) :
    vm.access σ va = none := by
  unfold VirtualMemory.access
  simp only [hT]
  cases hP : vm.pages.find va.number_page with
  | some pg =>
      cases hv : pg.valid with
      | true =>
          exfalso
          apply hmiss
          rw [hP]
          simp [hv]
      | false =>
          simp only [hP, hv, Bool.false_eq_true, if_false, hret, hgF, hgb]
  | none =>
      simp only [hP, hret, hgF, hgb]

/-- A `retrieve_frame` under the file-backed storage always succeeds when the
frame-table bookkeeping is sound. -/
theorem VirtualMemory.retrieve_storageOf_total (data : List Nat)
    (vmB : VirtualMemory) (p : Nat)
    (hsum : vmB.frames.available.length + vmB.frames.victimizer.length
      = vmB.frames.table_size)
    (hts : 1 ≤ vmB.frames.table_size)
    (hlen : vmB.frames.entries.length = vmB.frames.table_size)
    (hb1 : ∀ i ∈ vmB.frames.available, i < vmB.frames.table_size)
    (hb2 : ∀ i ∈ vmB.frames.victimizer, i < vmB.frames.table_size) :
    ∃ vmR fi, vmB.retrieve_frame (storageOf data) p
      = some (vmR, Except.ok fi) := by
  obtain ⟨f₀, ft', hall, -, -⟩ := FrameTable.allocate_total vmB.frames hsum hts
  obtain ⟨hent, -, -⟩ := FrameTable.allocate_fields hall
  obtain ⟨-, -, -, hmem⟩ := FrameTable.allocate_queues hall
  have hf0 : f₀ < vmB.frames.table_size := by
    rcases hmem with h | h
    · exact hb1 f₀ h
    · exact hb2 f₀ h
  cases hgF : ft'.entries.get? f₀ with
  | none =>
      exfalso
      rw [List.get?_eq_none, hent, hlen] at hgF
      omega
  | some F =>
      unfold VirtualMemory.retrieve_frame
      simp only [hall, hgF]
      cases hpg : vmB.pages.find F.page_id with
      | none =>
          simp only [hpg, storageOf, Storage.read]
          exact ⟨_, _, rfl⟩
      | some pg =>
          simp only [hpg, storageOf, Storage.read]
          exact ⟨_, _, rfl⟩

/-- Under the file-backed storage, `access` never panics from a state with a
sound control invariant, at least one frame, and an offset within the frame
size. -/
theorem VirtualMemory.access_storageOf_total (data : List Nat)
    (vm : VirtualMemory) (va : VirtualAddress)
    (hinv : InvCtl vm) (hts : 1 ≤ vm.frames.table_size)
    (hoff : va.number_offset < vm.frames.frame_size) :
    (vm.access (storageOf data) va).isSome = true := by
  obtain ⟨c1, c2, c3, c4, c5, c6, c7, c8⟩ := hinv
  have fault_total : ¬ (vm.pages.find va.number_page).map Page.valid = some true →
      vm.tlb.find va.number_page = none →
      (vm.access (storageOf data) va).isSome = true := by
    intro hmiss hT
    obtain ⟨vmR, fi, hret⟩ := VirtualMemory.retrieve_storageOf_total data
      { vm with tracker :=
          { vm.tracker with attempted_memory_accesses :=
              vm.tracker.attempted_memory_accesses + 1 } }
      va.number_page c2 hts c1 c3 c4
    obtain ⟨ft₁, F0, buf, hA, hFi, hσ, hfr, -⟩ :=
      VirtualMemory.retrieve_frame_ok_state _ _ va.number_page vmR fi hret
    obtain ⟨hent, -, -⟩ := FrameTable.allocate_fields hA
    have hE : vmR.frames.entries = ft₁.entries.set fi ⟨buf, va.number_page⟩ := by
      rw [hfr]
    have hgF : vmR.frames.entries.get? fi = some ⟨buf, va.number_page⟩ := by
      rw [hE, List.get?_set_eq, hFi]
      rfl
    have hF0mem : F0 ∈ vm.frames.entries := by
      apply List.get?_mem
      rw [← hent]
      exact hFi
    have hbuflen : buf.length = F0.buffer.length := storageOf_length hσ
    have hlen0 : F0.buffer.length = vm.frames.frame_size := c5 F0 hF0mem
    cases hgb : buf.get? va.number_offset with
    | none =>
        exfalso
        rw [List.get?_eq_none, hbuflen, hlen0] at hgb
        omega
    | some b =>
        exact VirtualMemory.access_fault_isSome _ vm va vmR fi
          ⟨buf, va.number_page⟩ b hT hmiss hret hgF hgb
  cases hT : vm.tlb.find va.number_page with
  | some f =>
      have hmem := lhmGet_mem hT
      have hPT := c6 _ hmem
      have hptmem := PageTable.find_mem hPT
      have h8 := c8 _ hptmem rfl
      rcases Option.map_eq_some'.mp h8 with ⟨F, hgF, -⟩
      have hlenF := c5 F (List.get?_mem hgF)
      cases hgb : F.buffer.get? va.number_offset with
      | none =>
          exfalso
          rw [List.get?_eq_none, hlenF] at hgb
          omega
      | some b =>
          rw [VirtualMemory.access_tlb_hit _ vm va f F b hT hgF hgb]
          rfl
  | none =>
      cases hP : vm.pages.find va.number_page with
      | some pg =>
          cases hv : pg.valid with
          | true =>
              have hptmem := PageTable.find_mem hP
              have h8 := c8 _ hptmem hv
              rcases Option.map_eq_some'.mp h8 with ⟨F, hgF, -⟩
              have hlenF := c5 F (List.get?_mem hgF)
              cases hgb : F.buffer.get? va.number_offset with
              | none =>
                  exfalso
                  rw [List.get?_eq_none, hlenF] at hgb
                  omega
              | some b =>
                  exact VirtualMemory.access_pt_hit _ vm va pg F b hT hP hv hgF hgb
          | false =>
              refine fault_total ?_ hT
              rw [hP]
              simp [hv]
      | none =>
          refine fault_total ?_ hT
          rw [hP]
          simp

/-- From a cold start, an access whose offset reaches past the frame size
panics on the frame-buffer index. -/
theorem cold_access_oob (data : List Nat) (tlb_size table_size frame_size : Nat)
    (p o e : Nat) (hts : 1 ≤ table_size) (ho : frame_size ≤ o) :
    VirtualMemory.access (storageOf data)
      (VirtualMemory.build tlb_size table_size frame_size) ⟨p, o, e⟩ = none := by
  obtain ⟨c1, c2, c3, c4, c5, c6, c7, c8⟩ :=
    build_InvCtl tlb_size table_size frame_size
  have hT : (VirtualMemory.build tlb_size table_size frame_size).tlb.find p
      = none := rfl
  have hmiss : ¬ ((VirtualMemory.build tlb_size table_size
      frame_size).pages.find p).map Page.valid = some true := by
    intro h0
    exact Option.noConfusion h0
  obtain ⟨vmR, fi, hret⟩ := VirtualMemory.retrieve_storageOf_total data
    { VirtualMemory.build tlb_size table_size frame_size with tracker :=
        { (VirtualMemory.build tlb_size table_size frame_size).tracker with
            attempted_memory_accesses :=
              (VirtualMemory.build tlb_size table_size
                frame_size).tracker.attempted_memory_accesses + 1 } }
    p c2 hts c1 c3 c4
  obtain ⟨ft₁, F0, buf, hA, hFi, hσ, hfr, -⟩ :=
    VirtualMemory.retrieve_frame_ok_state _ _ p vmR fi hret
  obtain ⟨hent, -, -⟩ := FrameTable.allocate_fields hA
  have hE : vmR.frames.entries = ft₁.entries.set fi ⟨buf, p⟩ := by rw [hfr]
  have hgF : vmR.frames.entries.get? fi = some ⟨buf, p⟩ := by
    rw [hE, List.get?_set_eq, hFi]
    rfl
  have hF0mem : F0 ∈ (VirtualMemory.build tlb_size table_size
      frame_size).frames.entries := by
    apply List.get?_mem
    rw [← hent]
    exact hFi
  have hbuflen : buf.length = F0.buffer.length := storageOf_length hσ
  have hlen0 : F0.buffer.length = frame_size := c5 F0 hF0mem
  have hgb : buf.get? o = none := by
    rw [List.get?_eq_none, hbuflen, hlen0]
    exact ho
  exact VirtualMemory.access_fault_oob _ _ ⟨p, o, e⟩ vmR fi ⟨buf, p⟩
    hT hmiss hret hgF hgb

/-! ## Claim C10 — frame sizes below 256 are accepted but unsafe -/

/-- Claim C10: (a) startup validation accepts a power-of-two `size_frame`
below 256 (here 128); (b) for every configuration with `frame_size < 256`
(`frame_size ≤ o ≤ 255`), any virtual address with offset `o ≥ frame_size`
makes `access` index the frame buffer out of bounds and panic, already from a
cold start; (c) for `frame_size ≥ 256` every frame-buffer index taken by
`access` along any replay of `u8` addresses is in bounds — the access never
panics (offsets are at most 255). -/
theorem c10_frame_size_bounds :
    (Config.validate ⟨64, 16, 128⟩ = true) ∧
    (∀ (data : List Nat) (tlb_size table_size frame_size p o e : Nat),
      1 ≤ table_size → 1 ≤ frame_size → frame_size ≤ o → o < 256 → p < 256 →
      VirtualMemory.access (storageOf data)
        (VirtualMemory.build tlb_size table_size frame_size) ⟨p, o, e⟩
        = none) ∧
    (∀ (data : List Nat) (tlb_size table_size frame_size : Nat)
        (tr : List VirtualAddress) (vm : VirtualMemory) (va : VirtualAddress),
      1 ≤ table_size → 256 ≤ frame_size →
      (∀ a ∈ tr, a.number_page < 256) →
      runAccesses (storageOf data)
        (VirtualMemory.build tlb_size table_size frame_size) tr = some vm →
      va.number_page < 256 → va.number_offset < 256 →
      (vm.access (storageOf data) va).isSome = true) := by
  refine ⟨by decide, ?_, ?_⟩
  · intro data tlb_size table_size frame_size p o e hts _ ho _ _
    exact cold_access_oob data tlb_size table_size frame_size p o e hts ho
  · intro data tlb_size table_size frame_size tr vm va hts hfs htr hrun hp ho
    obtain ⟨hinv, hfseq, htseq⟩ :=
      runAccesses_ctl data tr _ vm hrun htr
        (build_InvCtl tlb_size table_size frame_size)
    apply VirtualMemory.access_storageOf_total data vm va hinv
    · rw [htseq]
      exact hts
    · rw [hfseq]
      exact lt_of_lt_of_le ho hfs

/-- Claim C10 witness: parts (b) and (c) of the theorem instantiated — a cold
access at offset 2 with frame size 2 panics, while a cold access with frame
size 256 succeeds. -/
theorem c10_witness :
    VirtualMemory.access (storageOf [0]) (VirtualMemory.build 1 1 2)
      ⟨0, 2, 0⟩ = none ∧
    ((VirtualMemory.build 1 1 256).access (storageOf []) ⟨0, 0, 0⟩).isSome
      = true :=
  ⟨c10_frame_size_bounds.2.1 [0] 1 1 2 0 2 0 (by decide) (by decide)
      (by decide) (by decide) (by decide),
    c10_frame_size_bounds.2.2 [] 1 1 256 [] (VirtualMemory.build 1 1 256)
      ⟨0, 0, 0⟩ (by decide) (by decide) (by decide) rfl (by decide)
      (by decide)⟩
